import Mathlib

/-!
Verification of the func_apply dynamic-invocation extension.

A shallow embedding of `src/func_apply_extension.cpp`: the security-policy
engine (per-session `FuncApplySecurityConfig` and its setters), the callable
resolver (`FunctionExistsOfType`, `GetCallableFunctionType`,
`CheckFunctionExists`), the invocation engine (`ExecuteFunctionInternal`,
`CallValidator`, `ValidateFunctionCall`), the value-to-literal codec
(`ValueToSQL`) together with a literal parser for the host grammar fragment
it emits, and the entry-point row/bind functions (`ApplyScalarRow`,
`ApplyWithScalarRow`, `ApplyTableBindReplace`, `ApplyTableWithBindReplace`).

Strings are modelled by their logical `List Char` contents.  The external
catalog and the external binder/evaluator are oracles (`ExtCatalog`,
`Engine`); catalog accesses and engine invocations are recorded in an event
trace so that "before any catalog access" style properties are statable.
-/

namespace FuncApply

/-- DuckDB catalog entry kinds probed by the extension
(`CatalogType` in the source). -/
inductive CatalogType where
  | SCALAR_FUNCTION_ENTRY
  | AGGREGATE_FUNCTION_ENTRY
  | TABLE_FUNCTION_ENTRY
  | MACRO_ENTRY
  | INVALID
  deriving DecidableEq, Repr

/-- The four temporal type kinds `ValueToSQL` gives a dedicated quoted
cast-suffix rendering. -/
inductive TemporalKind where
  | date
  | time
  | timestamp
  | interval
  deriving DecidableEq, Repr

mutual
/-- DuckDB `Value`, with one constructor per rendering branch of
`ValueToSQL`: null; booleans and the integral numerics (all widths, as
mathematical integers); FLOAT/DOUBLE values, carried as the text the
external `Value::ToString` renders them to (that printer is an external
collaborator; it is injective on finite values); VARCHAR text; BLOB
values, carried as their rendered text; the four temporals, carried as
their rendered text; ordered collections; keyed records; and the
fallback kind `vcast` for every other type, carrying the type's name and
the value's rendered text (the dedicated kinds never reach the source's
`default` branch, so `vcast` ranges over the remaining types only).
`ValueList` and `FieldList` are inlined lists so that all recursion over
values is structural (hence kernel-reducible). -/
inductive Value where
  | vnull
  | vbool (b : Bool)
  | vint (n : Int)
  | vfloat (s : String)
  | vstr (s : String)
  | vblob (s : String)
  | vtemporal (k : TemporalKind) (s : String)
  | vcast (ty : String) (s : String)
  | vlist (xs : ValueList)
  | vstruct (fs : FieldList)

/-- A list of values (children of a LIST value). -/
inductive ValueList where
  | nil
  | cons (v : Value) (tl : ValueList)

/-- The fields of a STRUCT value: child names paired with child values. -/
inductive FieldList where
  | nil
  | cons (name : String) (v : Value) (tl : FieldList)
end

/-- The single-quote character, written via its code point to keep
character-literal escapes out of the sources. -/
def quoteChar : Char := Char.ofNat 39

/-- `IsValidIdentifier` from the source: nonempty, first character a letter
or underscore, remaining characters alphanumeric or underscore. -/
def IsValidIdentifier (name : String) : Bool :=
  match name.data with
  | [] => false
  | c :: rest =>
    (c.isAlpha || c = '_') && rest.all (fun d => d.isAlphanum || d = '_')

/-- `StringUtil::Lower`: ASCII case folding, character by character. -/
def strLower (s : String) : String := String.mk (s.data.map Char.toLower)

/-- Decimal digits of `n`, most significant first, produced with explicit
fuel so the definition is structurally recursive. An empty result encodes
`n = 0` (handled by `charsOfNat`). -/
def natToDecAux : Nat → Nat → List Char
  | 0, _ => []
  | fuel + 1, n =>
    if n = 0 then [] else natToDecAux fuel (n / 10) ++ [Nat.digitChar (n % 10)]

/-- Canonical decimal rendering of a natural number. -/
def charsOfNat (n : Nat) : List Char :=
  if n = 0 then ['0'] else natToDecAux (n + 1) n

/-- Canonical decimal rendering of an integer (DuckDB `Value::ToString` for
the integral numeric types). -/
def intToDecChars (n : Int) : List Char :=
  if n < 0 then '-' :: charsOfNat n.natAbs else charsOfNat n.natAbs

/-- Quote-escaping from `ValueToSQL`'s VARCHAR and `default` branches:
every internal single quote is doubled. -/
def escapeQuotes : List Char → List Char
  | [] => []
  | c :: rest =>
    if c = quoteChar then quoteChar :: quoteChar :: escapeQuotes rest
    else c :: escapeQuotes rest

/-- The cast-suffix text each temporal kind receives in `ValueToSQL`. -/
def temporalSuffix : TemporalKind → List Char
  | .date => ['D', 'A', 'T', 'E']
  | .time => ['T', 'I', 'M', 'E']
  | .timestamp => ['T', 'I', 'M', 'E', 'S', 'T', 'A', 'M', 'P']
  | .interval => ['I', 'N', 'T', 'E', 'R', 'V', 'A', 'L']

/-- The cast-suffix text of the BLOB branch. -/
def blobSuffix : List Char := ['B', 'L', 'O', 'B']

mutual
/-- `ValueToSQL` from the source, at the character level, one equation per
branch of its `switch`: null renders as `NULL`; booleans and the integral
numerics by `ToString` (the source lumps BOOLEAN through UHUGEINT, FLOAT
and DOUBLE into one passthrough case — FLOAT/DOUBLE appear here as their
carried rendering, embedded verbatim and unquoted); VARCHAR as a
single-quoted, quote-doubled string; BLOB as its rendered text between
single quotes — with no quote escaping, exactly as in the source — plus a
`::BLOB` suffix; DATE/TIME/TIMESTAMP/INTERVAL as a quoted text (again
unescaped) with the matching cast suffix; LIST as `[` + comma-join + `]`;
STRUCT as `{` + quoted child names (not escaped, as in the source) +
`: ` + encoded children + `}`; every other type by the `default` branch:
quote-doubled rendered text between single quotes plus `::` and the
type's name. -/
def encodeChars : Value → List Char
  | .vnull => ['N', 'U', 'L', 'L']
  | .vbool b => if b then ['t', 'r', 'u', 'e'] else ['f', 'a', 'l', 's', 'e']
  | .vint n => intToDecChars n
  | .vfloat s => s.data
  | .vstr s => quoteChar :: (escapeQuotes s.data ++ [quoteChar])
  | .vblob s => quoteChar :: (s.data ++ quoteChar :: ':' :: ':' :: blobSuffix)
  | .vtemporal k s => quoteChar :: (s.data ++ quoteChar :: ':' :: ':' :: temporalSuffix k)
  | .vcast ty s => quoteChar :: (escapeQuotes s.data ++ quoteChar :: ':' :: ':' :: ty.data)
  | .vlist xs => '[' :: (encodeListChars xs ++ [']'])
  | .vstruct fs => '{' :: (encodeStructChars fs ++ ['}'])

/-- The comma-joined encodings of a LIST's children. -/
def encodeListChars : ValueList → List Char
  | .nil => []
  | .cons x .nil => encodeChars x
  | .cons x (.cons y tl) =>
    encodeChars x ++ ',' :: ' ' :: encodeListChars (.cons y tl)

/-- The comma-joined `'name': value` encodings of a STRUCT's fields. -/
def encodeStructChars : FieldList → List Char
  | .nil => []
  | .cons k v .nil =>
    quoteChar :: (k.data ++ quoteChar :: ':' :: ' ' :: encodeChars v)
  | .cons k v (.cons k2 v2 tl) =>
    (quoteChar :: (k.data ++ quoteChar :: ':' :: ' ' :: encodeChars v))
      ++ ',' :: ' ' :: encodeStructChars (.cons k2 v2 tl)
end

/-- `ValueToSQL` as a `String`-valued function. -/
def ValueToSQL (v : Value) : String := String.mk (encodeChars v)

/-! ## A literal parser for the host grammar fragment

The host SQL parser is an external collaborator (spec §6). The fragment of
its literal grammar relevant to the codec contract is modelled from the
spec: single-quoted strings with doubled internal quotes, optional `::` +
type-name cast suffixes (with `BLOB`, `DATE`, `TIME`, `TIMESTAMP` and
`INTERVAL` producing the dedicated value kinds and any other simple type
name a fallback cast value), `NULL`, `true`/`false`, signed decimal
numerals with optional fractional part and exponent, bracketed
comma-separated lists, and braced `'name': value` records. -/

/-- Reads a string body up to its closing quote, undoing quote doubling;
returns the body and the input after the closing quote. -/
def parseStringBody : List Char → Option (List Char × List Char)
  | [] => none
  | c :: rest =>
    if c = quoteChar then
      match rest with
      | [] => some ([], [])
      | c2 :: rest2 =>
        if c2 = quoteChar then
          match parseStringBody rest2 with
          | some (s, r) => some (quoteChar :: s, r)
          | none => none
        else some ([], rest)
    else
      match parseStringBody rest with
      | some (s, r) => some (c :: s, r)
      | none => none

/-- Numeric value of a list of decimal digit characters. -/
def digitsVal (ds : List Char) : Nat :=
  ds.foldl (fun a c => 10 * a + (c.toNat - 48)) 0

/-- Parses a nonempty run of decimal digits, keeping the characters. -/
def parseDigits (l : List Char) : Option (List Char × List Char) :=
  match l.takeWhile (fun c => c.isDigit) with
  | [] => none
  | ds => some (ds, l.dropWhile (fun c => c.isDigit))

/-- Parses a digit run with an optional leading `+` or `-` sign (the shape
of an exponent's mantissa). -/
def parseSignedDigits (l : List Char) : Option (List Char × List Char) :=
  match l with
  | [] => none
  | c :: r =>
    if c = '+' ∨ c = '-' then
      match parseDigits r with
      | some (ds, rem) => some (c :: ds, rem)
      | none => none
    else parseDigits l

/-- Parses an exponent part `e [+-]? digits`. -/
def parseExpPart (l : List Char) : Option (List Char × List Char) :=
  match l with
  | [] => none
  | c :: r =>
    if c = 'e' then
      match parseSignedDigits r with
      | some (ds, rem) => some ('e' :: ds, rem)
      | none => none
    else none

/-- After an integral digit run, parses the continuation that makes the
numeral a floating-point one: a fractional part `.digits` with an optional
exponent, or a bare exponent. Fails when the numeral is integral. -/
def parseFloatTail (l : List Char) : Option (List Char × List Char) :=
  match l with
  | [] => none
  | c :: r =>
    if c = '.' then
      match parseDigits r with
      | some (ds, rem) =>
        match parseExpPart rem with
        | some (es, rem2) => some ('.' :: ds ++ es, rem2)
        | none => some ('.' :: ds, rem)
      | none => none
    else parseExpPart l

/-- Parses a signed decimal numeral: a floating-point literal (carrying
the exact text matched) when a fractional part or exponent follows the
integral digits, an integer otherwise. -/
def parseNumChars (l : List Char) : Option (Value × List Char) :=
  match l with
  | [] => none
  | c :: r =>
    if c = '-' then
      match parseDigits r with
      | some (ds, rem) =>
        match parseFloatTail rem with
        | some (fs, rem2) => some (.vfloat (String.mk ('-' :: (ds ++ fs))), rem2)
        | none => some (.vint (-(digitsVal ds : Int)), rem)
      | none => none
    else
      match parseDigits (c :: r) with
      | some (ds, rem) =>
        match parseFloatTail rem with
        | some (fs, rem2) => some (.vfloat (String.mk (ds ++ fs)), rem2)
        | none => some (.vint ((digitsVal ds : Int)), rem)
      | none => none

/-- The characters a simple type name in a cast suffix consists of. -/
def isTypeTokenChar (c : Char) : Bool := c.isAlphanum || c = '_'

/-- The suffix tokens the grammar maps to dedicated value kinds rather
than to the fallback cast kind. -/
def reservedSuffix (tok : List Char) : Bool :=
  decide (tok = blobSuffix) || decide (tok = temporalSuffix .date) ||
  decide (tok = temporalSuffix .time) ||
  decide (tok = temporalSuffix .timestamp) ||
  decide (tok = temporalSuffix .interval)

/-- Parses the type name after `'body'::`, dispatching the reserved
suffixes to the BLOB/temporal kinds and any other simple type name to the
fallback cast kind. -/
def parseCastSuffix (body : List Char) (l : List Char) :
    Option (Value × List Char) :=
  match l.takeWhile isTypeTokenChar with
  | [] => none
  | tok =>
    let rem := l.dropWhile isTypeTokenChar
    if tok = blobSuffix then some (.vblob (String.mk body), rem)
    else if tok = temporalSuffix .date then
      some (.vtemporal .date (String.mk body), rem)
    else if tok = temporalSuffix .time then
      some (.vtemporal .time (String.mk body), rem)
    else if tok = temporalSuffix .timestamp then
      some (.vtemporal .timestamp (String.mk body), rem)
    else if tok = temporalSuffix .interval then
      some (.vtemporal .interval (String.mk body), rem)
    else some (.vcast (String.mk tok) (String.mk body), rem)

mutual
/-- Parses one literal value, returning it with the remaining input.
`fuel` bounds the recursion depth; `parseLiteral` supplies enough for any
input. -/
def parseVal : Nat → List Char → Option (Value × List Char)
  | 0, _ => none
  | _ + 1, [] => none
  | fuel + 1, c :: rest =>
    if c = quoteChar then
      match parseStringBody rest with
      | none => none
      | some (body, rem) =>
        match rem with
        | ':' :: ':' :: rem2 => parseCastSuffix body rem2
        | _ => some (.vstr (String.mk body), rem)
    else if c = '[' then
      match rest with
      | [] => none
      | c2 :: rest2 =>
        if c2 = ']' then some (.vlist .nil, rest2)
        else
          match parseListTail fuel (c2 :: rest2) with
          | some (xs, rem) => some (.vlist xs, rem)
          | none => none
    else if c = '{' then
      match rest with
      | [] => none
      | c2 :: rest2 =>
        if c2 = '}' then some (.vstruct .nil, rest2)
        else
          match parseStructTail fuel (c2 :: rest2) with
          | some (fs, rem) => some (.vstruct fs, rem)
          | none => none
    else if c = 'N' then
      match rest with
      | 'U' :: 'L' :: 'L' :: rem => some (.vnull, rem)
      | _ => none
    else if c = 't' then
      match rest with
      | 'r' :: 'u' :: 'e' :: rem => some (.vbool true, rem)
      | _ => none
    else if c = 'f' then
      match rest with
      | 'a' :: 'l' :: 's' :: 'e' :: rem => some (.vbool false, rem)
      | _ => none
    else
      parseNumChars (c :: rest)

/-- Parses `value (, value)* ]`: the elements of a nonempty list literal,
consuming the closing bracket. -/
def parseListTail : Nat → List Char → Option (ValueList × List Char)
  | 0, _ => none
  | fuel + 1, l =>
    match parseVal fuel l with
    | none => none
    | some (v, rem) =>
      match rem with
      | ']' :: rem2 => some (.cons v .nil, rem2)
      | ',' :: ' ' :: rem2 =>
        match parseListTail fuel rem2 with
        | some (xs, rem3) => some (.cons v xs, rem3)
        | none => none
      | _ => none

/-- Parses `'name': value (, 'name': value)* \x7d`: the fields of a
nonempty record literal, consuming the closing brace. -/
def parseStructTail : Nat → List Char → Option (FieldList × List Char)
  | 0, _ => none
  | fuel + 1, l =>
    match l with
    | [] => none
    | c :: rest =>
      if c = quoteChar then
        match parseStringBody rest with
        | none => none
        | some (key, rem) =>
          match rem with
          | ':' :: ' ' :: rem2 =>
            match parseVal fuel rem2 with
            | none => none
            | some (v, rem3) =>
              match rem3 with
              | '}' :: rem4 => some (.cons (String.mk key) v .nil, rem4)
              | ',' :: ' ' :: rem4 =>
                match parseStructTail fuel rem4 with
                | some (fs, rem5) => some (.cons (String.mk key) v fs, rem5)
                | none => none
              | _ => none
          | _ => none
      else none
end

/-- Parses a complete literal: the whole input must be consumed. -/
def parseLiteral (s : String) : Option Value :=
  match parseVal (s.data.length + 1) s.data with
  | some (v, []) => some v
  | _ => none

/-! ## Well-formedness for the round-trip law -/

/-- No single quote occurs among the given characters. -/
def noQuote (l : List Char) : Bool := l.all (fun c => c != quoteChar)

/-- The text is a complete floating-point numeral of the grammar: the
numeral parser consumes it entirely and reproduces it. This is the shape
of a finite FLOAT/DOUBLE rendering (an integral part and a fractional
part and/or an exponent); the renderings of infinities and NaN (`inf`,
`-inf`, `nan`) are not numerals and fail it. -/
def isFloatText (l : List Char) : Bool :=
  match parseNumChars l with
  | some (.vfloat s, rem) => decide (rem = [] ∧ s.data = l)
  | _ => false

/-- The text is a simple type name: nonempty, made of alphanumerics and
underscores, and not one of the suffix tokens with a dedicated value kind
(those types never reach `ValueToSQL`'s `default` branch, so no fallback
cast value carries them). -/
def isTypeToken (l : List Char) : Bool :=
  decide (l ≠ []) && l.all isTypeTokenChar && ! reservedSuffix l

mutual
/-- The values for which the codec's round-trip law can hold: STRUCT child
names, temporal texts and BLOB texts must be quote-free (the codec does
not escape any of them); FLOAT/DOUBLE renderings must be numerals of the
grammar (finite values are; `inf`/`nan` are not); fallback-cast type
names must be simple type names. Fallback-cast value texts are
unrestricted: that branch escapes quotes. -/
def GoodVal : Value → Bool
  | .vnull => true
  | .vbool _ => true
  | .vint _ => true
  | .vfloat s => isFloatText s.data
  | .vstr _ => true
  | .vblob s => noQuote s.data
  | .vtemporal _ s => noQuote s.data
  | .vcast ty _ => isTypeToken ty.data
  | .vlist xs => GoodList xs
  | .vstruct fs => GoodFields fs

/-- `GoodVal` on every element. -/
def GoodList : ValueList → Bool
  | .nil => true
  | .cons x xs => GoodVal x && GoodList xs

/-- Quote-free names and `GoodVal` values on every field. -/
def GoodFields : FieldList → Bool
  | .nil => true
  | .cons k v fs => noQuote k.data && GoodVal v && GoodFields fs
end

/-- The input shapes that can legitimately follow an encoded value:
nothing (top level), or a separator/terminator of the enclosing
collection (`, `, `]`, `}`). -/
def BoundaryOk : List Char → Prop
  | [] => True
  | c :: _ => c = ',' ∨ c = ']' ∨ c = '}'

/-- The input does not begin with a single quote (so a closing quote
before it is not mistaken for a doubled quote). -/
def headNotQuote : List Char → Prop
  | [] => True
  | c :: _ => ¬ c = quoteChar

/-- The input does not begin with a character satisfying `p` (so a
`takeWhile p` run stops exactly at the seam). -/
def headFails (p : Char → Bool) : List Char → Prop
  | [] => True
  | c :: _ => p c = false

/-! ## Errors, oracles and the catalog-access trace -/

/-- The errors the embedded operations can raise (the source throws
`InvalidInputException` / `BinderException` with formatted messages;
constructors carry the data those messages name). -/
inductive Err where
  | InvalidIdentifier (entry : String) (name : String)
  | NotFound (name : String) (tableHint : Bool)
  | Blocked (name : String) (mode : String)
  | TableBlocked (entry : String) (name : String)
  | TableNotFound (entry : String) (name : String)
  | WrongCategory (entry : String) (name : String)
  | Misconfigured
  | Locked
  | AlreadyLocked
  | InvalidMode (m : String)
  | InvalidOnBlock (b : String)
  | NullFunctionName (entry : String)
  | MissingFunctionName (entry : String)
  | KwargsUnsupported
  | ParseFail (entry : String)
  | NotCallable (name : String)
  | ValidatorFailed (validator : String) (e : Err)
  | CallWrapped (entry : String) (name : String) (e : Err)
  | EngineFailure (msg : String)
  | UnexpectedInput
  deriving DecidableEq, Repr

/-- One observable interaction with the external world: a catalog lookup
(`GetEntry`: scope flag, requested type, name) or an invocation handed to
the external binder/evaluator. -/
inductive CatalogEvent where
  | lookup (systemScope : Bool) (ty : CatalogType) (name : String)
  | evalScalarCall (name : String)
  | evalMacroCall (name : String)
  deriving DecidableEq, Repr

/-- The external registry/catalog (spec §6): per-scope name lookups that
return the found entry's own category tag, which callers must re-check
(the requested category is not guaranteed to filter), plus whether a
default user database exists. -/
structure ExtCatalog where
  sysLookup : CatalogType → String → Option CatalogType
  userLookup : CatalogType → String → Option CatalogType
  hasUserDb : Bool

/-- The external binder/evaluator (spec §6): the scalar fast path
(`FunctionBinder` + `ExpressionExecutor`) and the macro expansion path
(`ConstantBinder` + `ExpressionExecutor`), collapsed to oracles from the
name and evaluated constant arguments to a value or an error. -/
structure Engine where
  evalScalarFn : String → List Value → Except Err Value
  evalMacroFn : String → List Value → Except Err Value

/-! ## Security configuration -/

/-- `DEFAULT_BLACKLIST` from the source. -/
def DEFAULT_BLACKLIST : List String :=
  ["load", "install", "uninstall", "force_install",
   "system", "getenv",
   "export_database", "import_database",
   "create_secret", "drop_secret"]

/-- `FuncApplySecurityConfig` from the source: per-session security state. -/
structure FuncApplySecurityConfig where
  mode : String
  blacklist : List String
  whitelist : List String
  validator_func : String
  on_block : String
  block_default : Value
  locked : Bool

/-- The constructor-installed defaults: mode `none`, on-block `error`,
unlocked, and the default blacklist inserted case-folded. -/
def defaultSecurityConfig : FuncApplySecurityConfig :=
  { mode := "none", blacklist := DEFAULT_BLACKLIST.map strLower,
    whitelist := [], validator_func := "", on_block := "error",
    block_default := .vnull, locked := false }

/-- `SetSecurityModeScalarFun`: fails when locked; rejects modes outside
the enumerated set; otherwise replaces `mode`. A raised error leaves the
session state unchanged (the source throws before mutating). -/
def SetSecurityMode (c : FuncApplySecurityConfig) (m : String) :
    Except Err FuncApplySecurityConfig :=
  if c.locked then .error .Locked
  else if m ≠ "none" ∧ m ≠ "blacklist" ∧ m ≠ "whitelist" ∧ m ≠ "validator" then
    .error (.InvalidMode m)
  else .ok { c with mode := m }

/-- The case-folded non-null members of a (possibly NULL) list argument,
as installed by the list setters. -/
def lowerListMembers (listVal : Option (List (Option String))) : List String :=
  match listVal with
  | none => []
  | some xs => xs.filterMap (fun o => o.map strLower)

/-- `SetBlacklistScalarFun`: fails when locked; otherwise replaces the
blacklist wholesale with the case-folded non-null members. -/
def SetBlacklist (c : FuncApplySecurityConfig)
    (listVal : Option (List (Option String))) : Except Err FuncApplySecurityConfig :=
  if c.locked then .error .Locked
  else .ok { c with blacklist := lowerListMembers listVal }

/-- `SetWhitelistScalarFun`: fails when locked; otherwise replaces the
whitelist wholesale with the case-folded non-null members. -/
def SetWhitelist (c : FuncApplySecurityConfig)
    (listVal : Option (List (Option String))) : Except Err FuncApplySecurityConfig :=
  if c.locked then .error .Locked
  else .ok { c with whitelist := lowerListMembers listVal }

/-- `SetValidatorScalarFun`: fails when locked; otherwise stores the name.
Note: the source applies no identifier-grammar check to the stored name. -/
def SetValidator (c : FuncApplySecurityConfig) (name : String) :
    Except Err FuncApplySecurityConfig :=
  if c.locked then .error .Locked
  else .ok { c with validator_func := name }

/-- `SetOnBlockScalarFun`: fails when locked; rejects behaviors outside
the enumerated set; otherwise replaces `on_block`. -/
def SetOnBlock (c : FuncApplySecurityConfig) (behavior : String) :
    Except Err FuncApplySecurityConfig :=
  if c.locked then .error .Locked
  else if behavior ≠ "error" ∧ behavior ≠ "null" ∧ behavior ≠ "default" then
    .error (.InvalidOnBlock behavior)
  else .ok { c with on_block := behavior }

/-- `SetBlockDefaultScalarFun`: fails when locked; otherwise stores the
value. -/
def SetBlockDefault (c : FuncApplySecurityConfig) (v : Value) :
    Except Err FuncApplySecurityConfig :=
  if c.locked then .error .Locked
  else .ok { c with block_default := v }

/-- `LockSecurityScalarFun`: one-way transition; fails when already
locked. -/
def LockSecurity (c : FuncApplySecurityConfig) : Except Err FuncApplySecurityConfig :=
  if c.locked then .error .AlreadyLocked
  else .ok { c with locked := true }

/-- `GetBlockedValue`: the substitute value for a blocked scalar call. -/
def GetBlockedValue (cfg : FuncApplySecurityConfig) : Value :=
  if cfg.on_block = "null" then .vnull
  else if cfg.on_block = "default" then cfg.block_default
  else .vnull

/-! ## Callable resolver -/

/-- Whether a returned entry exists and its own tag matches the requested
type (the defensive re-check from `FunctionExistsOfType`). -/
def entryMatches (e : Option CatalogType) (ty : CatalogType) : Bool :=
  match e with
  | some t => decide (t = ty)
  | none => false

/-- `FunctionExistsOfType`: probe the system catalog, then (when a default
user database exists) the user catalog; a probe hits only if the entry is
found and its own type tag matches. -/
def FunctionExistsOfType (cat : ExtCatalog) (funcName : String) (ty : CatalogType) :
    Bool × List CatalogEvent :=
  if entryMatches (cat.sysLookup ty funcName) ty then
    (true, [.lookup true ty funcName])
  else if cat.hasUserDb then
    (entryMatches (cat.userLookup ty funcName) ty,
     [.lookup true ty funcName, .lookup false ty funcName])
  else (false, [.lookup true ty funcName])

/-- `GetCallableFunctionType`: probe SCALAR first, then MACRO; table
functions are deliberately excluded. Returns INVALID when neither hits. -/
def GetCallableFunctionType (cat : ExtCatalog) (funcName : String) :
    CatalogType × List CatalogEvent :=
  let scalarProbe := FunctionExistsOfType cat funcName .SCALAR_FUNCTION_ENTRY
  if scalarProbe.1 then (.SCALAR_FUNCTION_ENTRY, scalarProbe.2)
  else
    let macProbe := FunctionExistsOfType cat funcName .MACRO_ENTRY
    if macProbe.1 then (.MACRO_ENTRY, scalarProbe.2 ++ macProbe.2)
    else (.INVALID, scalarProbe.2 ++ macProbe.2)

/-- `TableFunctionExists`. -/
def TableFunctionExists (cat : ExtCatalog) (funcName : String) :
    Bool × List CatalogEvent :=
  FunctionExistsOfType cat funcName .TABLE_FUNCTION_ENTRY

/-- The type list probed by `CheckFunctionExists`. -/
def functionTypes : List CatalogType :=
  [.SCALAR_FUNCTION_ENTRY, .AGGREGATE_FUNCTION_ENTRY,
   .TABLE_FUNCTION_ENTRY, .MACRO_ENTRY]

/-- `CheckFunctionExistsInCatalog`: probe each type in order in one scope;
a found entry counts regardless of its tag (this helper does not re-check
the type). -/
def CheckFunctionExistsInCatalog (scope : CatalogType → String → Option CatalogType)
    (systemScope : Bool) (funcName : String) :
    List CatalogType → Bool × List CatalogEvent
  | [] => (false, [])
  | ty :: tys =>
    if (scope ty funcName).isSome then (true, [.lookup systemScope ty funcName])
    else
      let probe := CheckFunctionExistsInCatalog scope systemScope funcName tys
      (probe.1, .lookup systemScope ty funcName :: probe.2)

/-- `CheckFunctionExists` (the `function_exists` entry point's core):
empty names report false; otherwise probe the system catalog over all
function types, then the default user catalog. Note: no identifier-grammar
check precedes these catalog accesses. -/
def CheckFunctionExists (cat : ExtCatalog) (funcName : String) :
    Bool × List CatalogEvent :=
  if funcName = "" then (false, [])
  else
    let sysProbe := CheckFunctionExistsInCatalog cat.sysLookup true funcName functionTypes
    if sysProbe.1 then (true, sysProbe.2)
    else if cat.hasUserDb then
      let userProbe := CheckFunctionExistsInCatalog cat.userLookup false funcName functionTypes
      (userProbe.1, sysProbe.2 ++ userProbe.2)
    else (false, sysProbe.2)

/-! ## Invocation engine -/

/-- `ExecuteFunctionInternal`'s dispatch core (everything after its
security check): classify the name, dispatch scalar/macro invocations to
the external engine, raise NotFound with a table-function hint when the
name only resolves as a table function. -/
def ExecuteFunctionCore (eng : Engine) (cat : ExtCatalog) (funcName : String)
    (args : List Value) : Except Err Value × List CatalogEvent :=
  let classified := GetCallableFunctionType cat funcName
  if classified.1 = .INVALID then
    let tfProbe := TableFunctionExists cat funcName
    if tfProbe.1 then (.error (.NotFound funcName true), classified.2 ++ tfProbe.2)
    else (.error (.NotFound funcName false), classified.2 ++ tfProbe.2)
  else if classified.1 = .SCALAR_FUNCTION_ENTRY then
    (eng.evalScalarFn funcName args, classified.2 ++ [.evalScalarCall funcName])
  else if classified.1 = .MACRO_ENTRY then
    (eng.evalMacroFn funcName args, classified.2 ++ [.evalMacroCall funcName])
  else (.error (.NotCallable funcName), classified.2)

/-! ## Call descriptor builder -/

/-- A coarse model of `Value::type().ToString()`: the type-name text
attached to arguments in the validator descriptor. -/
def typeName : Value → String
  | .vnull => "NULL"
  | .vbool _ => "BOOLEAN"
  | .vint _ => "BIGINT"
  | .vfloat _ => "DOUBLE"
  | .vstr _ => "VARCHAR"
  | .vblob _ => "BLOB"
  | .vtemporal k _ => String.mk (temporalSuffix k)
  | .vcast ty _ => ty
  | .vlist _ => "LIST"
  | .vstruct _ => "STRUCT"

/-- The 1-based positional index strings `arg_indexes`. -/
def buildIndexList (i : Nat) : List Value → ValueList
  | [] => .nil
  | _ :: rest => .cons (.vstr (String.mk (charsOfNat i))) (buildIndexList (i + 1) rest)

/-- The positional `arg_types` type-name strings. -/
def buildTypeList : List Value → ValueList
  | [] => .nil
  | v :: rest => .cons (.vstr (typeName v)) (buildTypeList rest)

/-- The positional `arg_values` record: 1-based index keys mapped to the
argument values. -/
def buildIndexFields (i : Nat) : List Value → FieldList
  | [] => .nil
  | v :: rest => .cons (String.mk (charsOfNat i)) v (buildIndexFields (i + 1) rest)

/-- The named `arg_names` strings. -/
def buildNamedNames : List (String × Value) → ValueList
  | [] => .nil
  | (k, _) :: rest => .cons (.vstr k) (buildNamedNames rest)

/-- The named `arg_types` type-name strings. -/
def buildNamedTypes : List (String × Value) → ValueList
  | [] => .nil
  | (_, v) :: rest => .cons (.vstr (typeName v)) (buildNamedTypes rest)

/-- The named `arg_values` record. -/
def buildNamedFields : List (String × Value) → FieldList
  | [] => .nil
  | (k, v) :: rest => .cons k v (buildNamedFields rest)

/-- The parameters struct `CallValidator` hands to the validator:
`total_args`, a `positional` sub-record (`arg_indexes`, `arg_types`,
`arg_values`) and a `named` sub-record (`arg_names`, `arg_types`,
`arg_values`); empty argument sets yield the same well-typed shape with
empty members. -/
def BuildValidatorParams (positionalArgs : List Value)
    (namedArgs : List (String × Value)) : Value :=
  let positionalStruct : Value := .vstruct
    (.cons "arg_indexes" (.vlist (buildIndexList 1 positionalArgs))
    (.cons "arg_types" (.vlist (buildTypeList positionalArgs))
    (.cons "arg_values" (.vstruct (buildIndexFields 1 positionalArgs)) .nil)))
  let namedStruct : Value := .vstruct
    (.cons "arg_names" (.vlist (buildNamedNames namedArgs))
    (.cons "arg_types" (.vlist (buildNamedTypes namedArgs))
    (.cons "arg_values" (.vstruct (buildNamedFields namedArgs)) .nil)))
  .vstruct
    (.cons "total_args" (.vint ((positionalArgs.length : Int) + (namedArgs.length : Int)))
    (.cons "positional" positionalStruct
    (.cons "named" namedStruct .nil)))

/-! ## Security policy engine -/

/-- `CallValidator`: build the parameters struct, invoke the configured
validator through the engine with the security check skipped (the
`skip_security_check = true` call to `ExecuteFunctionInternal`, which is
exactly `ExecuteFunctionCore`), interpret a null result as false and a
boolean result as itself, and wrap any raised error with the validator's
name. (A successful non-boolean result hits a `BooleanValue::Get`
assertion in the source; it is modelled as a wrapped error.) -/
def CallValidator (eng : Engine) (cat : ExtCatalog) (validatorName : String)
    (funcName : String) (positionalArgs : List Value)
    (namedArgs : List (String × Value)) : Except Err Bool × List CatalogEvent :=
  let parameters := BuildValidatorParams positionalArgs namedArgs
  let validatorArgs := [Value.vstr funcName, parameters]
  match ExecuteFunctionCore eng cat validatorName validatorArgs with
  | (.ok v, tr) =>
    match v with
    | .vnull => (.ok false, tr)
    | .vbool b => (.ok b, tr)
    | _ => (.error (.ValidatorFailed validatorName .UnexpectedInput), tr)
  | (.error e, tr) => (.error (.ValidatorFailed validatorName e), tr)

/-- `ValidateFunctionCall`: decide whether the policy allows the call.
Mode `none` always allows; `blacklist` allows iff the case-folded name is
absent; `whitelist` allows iff it is present; `validator` requires a
configured validator name and delegates to `CallValidator`. When the
decision is "not allowed": on-block `error` raises Blocked naming the
function and the mode, otherwise the call reports false and the caller
substitutes `GetBlockedValue`. -/
def ValidateFunctionCall (eng : Engine) (cat : ExtCatalog)
    (cfg : FuncApplySecurityConfig) (funcName : String)
    (positionalArgs : List Value) (namedArgs : List (String × Value)) :
    Except Err Bool × List CatalogEvent :=
  if cfg.mode = "none" then (.ok true, [])
  else
    let lowerName := strLower funcName
    let finish : Bool → List CatalogEvent → Except Err Bool × List CatalogEvent :=
      fun allowed tr =>
        if allowed then (.ok true, tr)
        else if cfg.on_block = "error" then (.error (.Blocked funcName cfg.mode), tr)
        else (.ok false, tr)
    if cfg.mode = "blacklist" then
      finish (if lowerName ∈ cfg.blacklist then false else true) []
    else if cfg.mode = "whitelist" then
      finish (if lowerName ∈ cfg.whitelist then true else false) []
    else if cfg.mode = "validator" then
      if cfg.validator_func = "" then (.error .Misconfigured, [])
      else
        match CallValidator eng cat cfg.validator_func funcName positionalArgs namedArgs with
        | (.ok allowed, tr) => finish allowed tr
        | (.error e, tr) => (.error e, tr)
    else finish false []

/-- `ExecuteFunctionInternal`: unless the security check is skipped,
validate first; a blocked-but-not-raising outcome returns the configured
blocked value without resolving or invoking anything. -/
def ExecuteFunctionInternal (eng : Engine) (cat : ExtCatalog)
    (cfg : FuncApplySecurityConfig) (funcName : String) (args : List Value)
    (skipSecurityCheck : Bool) : Except Err Value × List CatalogEvent :=
  if skipSecurityCheck then ExecuteFunctionCore eng cat funcName args
  else
    match ValidateFunctionCall eng cat cfg funcName args [] with
    | (.ok true, tr) =>
      let core := ExecuteFunctionCore eng cat funcName args
      (core.1, tr ++ core.2)
    | (.ok false, tr) => (.ok (GetBlockedValue cfg), tr)
    | (.error e, tr) => (.error e, tr)

/-- `ExecuteFunction`: the public wrapper that always performs the
security check. -/
def ExecuteFunction (eng : Engine) (cat : ExtCatalog)
    (cfg : FuncApplySecurityConfig) (funcName : String) (args : List Value) :
    Except Err Value × List CatalogEvent :=
  ExecuteFunctionInternal eng cat cfg funcName args false

/-! ## Scalar entry points (per-row behavior) -/

/-- One row of `ApplyScalarFun` (the `apply` entry point): a NULL name
yields NULL; an invalid identifier raises before anything else; otherwise
the call is executed and raised errors are wrapped with the entry point
and name. -/
def ApplyScalarRow (eng : Engine) (cat : ExtCatalog)
    (cfg : FuncApplySecurityConfig) (funcNameVal : Value) (rowArgs : List Value) :
    Except Err Value × List CatalogEvent :=
  match funcNameVal with
  | .vnull => (.ok .vnull, [])
  | .vstr funcName =>
    if IsValidIdentifier funcName = false then
      (.error (.InvalidIdentifier "apply" funcName), [])
    else
      match ExecuteFunction eng cat cfg funcName rowArgs with
      | (.ok v, tr) => (.ok v, tr)
      | (.error e, tr) => (.error (.CallWrapped "apply" funcName e), tr)
  | _ => (.error .UnexpectedInput, [])

/-- The `List Value` contents of a `ValueList`. -/
def ValueList.toList : ValueList → List Value
  | .nil => []
  | .cons v tl => v :: toList tl

/-- Whether a `FieldList` is empty. -/
def FieldList.isEmpty : FieldList → Bool
  | .nil => true
  | .cons _ _ _ => false

/-- One row of `ApplyWithScalarFun` (the `apply_with` entry point): NULL
name yields NULL; invalid identifiers raise; positional arguments come
from the args LIST value (absent/NULL/non-list means none); a provided
kwargs STRUCT with any field raises the named-parameters-unsupported
error before the callable is invoked. -/
def ApplyWithScalarRow (eng : Engine) (cat : ExtCatalog)
    (cfg : FuncApplySecurityConfig) (funcNameVal : Value) (argsVal : Value)
    (hasKwargs : Bool) (kwargsVal : Value) :
    Except Err Value × List CatalogEvent :=
  match funcNameVal with
  | .vnull => (.ok .vnull, [])
  | .vstr funcName =>
    if IsValidIdentifier funcName = false then
      (.error (.InvalidIdentifier "apply_with" funcName), [])
    else
      let funcArgs : List Value :=
        match argsVal with
        | .vlist xs => xs.toList
        | _ => []
      let kwargsBad : Bool :=
        hasKwargs &&
          (match kwargsVal with
           | .vstruct fs => !fs.isEmpty
           | _ => false)
      if kwargsBad then (.error .KwargsUnsupported, [])
      else
        match ExecuteFunction eng cat cfg funcName funcArgs with
        | (.ok v, tr) => (.ok v, tr)
        | (.error e, tr) => (.error (.CallWrapped "apply_with" funcName e), tr)
  | _ => (.error .UnexpectedInput, [])

/-! ## Table-call synthesizer (bind_replace entry points) -/

/-- Comma-join of already-rendered call-argument fragments. -/
def joinParts : List String → String
  | [] => ""
  | [p] => p
  | p :: q :: rest => p ++ ", " ++ joinParts (q :: rest)

/-- The rendered positional fragments of a LIST value's children. -/
def listParts : ValueList → List String
  | .nil => []
  | .cons v tl => ValueToSQL v :: listParts tl

/-- The rendered `name := value` fragments of a kwargs STRUCT's fields. -/
def fieldParts : FieldList → List String
  | .nil => []
  | .cons k v tl => (k ++ " := " ++ ValueToSQL v) :: fieldParts tl

/-- First value bound to `key` among named parameters. -/
def findNamed (key : String) : List (String × Value) → Option Value
  | [] => none
  | (k, v) :: rest => if k = key then some v else findNamed key rest

/-- The named-parameter splice loop of `ApplyTableBindReplace`: each named
parameter strips the trailing closing parenthesis, prepends a comma unless
this is the first fragment inside empty parentheses, and re-closes the
call. `firstNamed` starts as "no positional arguments were present". -/
def spliceNamedGo (argCountGtOne : Bool) : Bool → String → List (String × Value) → String
  | _, sql, [] => sql
  | firstNamed, sql, (k, v) :: rest =>
    let base := sql.dropRight 1
    let base2 := if (!firstNamed) || argCountGtOne then base ++ ", " else base
    spliceNamedGo argCountGtOne false (base2 ++ k ++ " := " ++ ValueToSQL v ++ ")") rest

/-- `ApplyTableBindReplace` (the `apply_table` entry point): validate the
name syntactically, then against the security policy (a blocked call is
always an error at bind time — table functions cannot return substitute
values), then require a table function (with WrongCategory naming the
scalar alternative), synthesize `SELECT * FROM name(args...)` and parse
it. `parseOk` is the external parser oracle (must produce exactly one
SELECT statement); the synthesized text is returned as the subquery. -/
def ApplyTableBindReplace (eng : Engine) (cat : ExtCatalog)
    (cfg : FuncApplySecurityConfig) (parseOk : String → Bool)
    (inputs : List Value) (namedParams : List (String × Value)) :
    Except Err String × List CatalogEvent :=
  match inputs with
  | [] => (.error (.MissingFunctionName "apply_table"), [])
  | funcNameVal :: rest =>
    match funcNameVal with
    | .vnull => (.error (.NullFunctionName "apply_table"), [])
    | .vstr funcName =>
      if IsValidIdentifier funcName = false then
        (.error (.InvalidIdentifier "apply_table" funcName), [])
      else
        match ValidateFunctionCall eng cat cfg funcName rest [] with
        | (.error e, tr) => (.error e, tr)
        | (.ok false, tr) => (.error (.TableBlocked "apply_table" funcName), tr)
        | (.ok true, tr) =>
          let tfProbe := TableFunctionExists cat funcName
          if tfProbe.1 = false then
            let classified := GetCallableFunctionType cat funcName
            if classified.1 ≠ .INVALID then
              (.error (.WrongCategory "apply_table" funcName), tr ++ tfProbe.2 ++ classified.2)
            else
              (.error (.TableNotFound "apply_table" funcName), tr ++ tfProbe.2 ++ classified.2)
          else
            let sql := "SELECT * FROM " ++ funcName ++ "("
              ++ joinParts (rest.map ValueToSQL) ++ ")"
            let sql2 := spliceNamedGo (decide (1 < inputs.length))
              (decide (inputs.length ≤ 1)) sql namedParams
            if parseOk sql2 then (.ok sql2, tr ++ tfProbe.2)
            else (.error (.ParseFail "apply_table"), tr ++ tfProbe.2)
    | _ => (.error .UnexpectedInput, [])

/-- The positional argument values `ApplyTableWithBindReplace` validates
and renders: the children of the args LIST, taken from the `args` named
parameter or else the second input. -/
def ApplyTableWithArgsList (inputs : List Value)
    (namedParams : List (String × Value)) : Value :=
  match findNamed "args" namedParams with
  | some v => v
  | none =>
    match inputs with
    | _ :: second :: _ => second
    | _ => .vnull

/-- The kwargs STRUCT `ApplyTableWithBindReplace` renders: the `kwargs`
named parameter or else the third input. -/
def ApplyTableWithKwargs (inputs : List Value)
    (namedParams : List (String × Value)) : Value :=
  match findNamed "kwargs" namedParams with
  | some v => v
  | none =>
    match inputs with
    | _ :: _ :: third :: _ => third
    | _ => .vnull

/-- The list of values a (possibly absent/NULL/non-list) args value
contributes. -/
def argsListChildren (argsVal : Value) : List Value :=
  match argsVal with
  | .vlist xs => xs.toList
  | _ => []

/-- `ApplyTableWithBindReplace` (the `apply_table_with` entry point):
like `apply_table` but with structured args/kwargs; kwargs are rendered
as `name := value` fragments (named parameters are supported here,
asymmetrically with `apply_with`). -/
def ApplyTableWithBindReplace (eng : Engine) (cat : ExtCatalog)
    (cfg : FuncApplySecurityConfig) (parseOk : String → Bool)
    (inputs : List Value) (namedParams : List (String × Value)) :
    Except Err String × List CatalogEvent :=
  match inputs with
  | [] => (.error (.MissingFunctionName "apply_table_with"), [])
  | funcNameVal :: _ =>
    match funcNameVal with
    | .vnull => (.error (.NullFunctionName "apply_table_with"), [])
    | .vstr funcName =>
      if IsValidIdentifier funcName = false then
        (.error (.InvalidIdentifier "apply_table_with" funcName), [])
      else
        let argsVal := ApplyTableWithArgsList inputs namedParams
        let argsForValidation := argsListChildren argsVal
        match ValidateFunctionCall eng cat cfg funcName argsForValidation [] with
        | (.error e, tr) => (.error e, tr)
        | (.ok false, tr) => (.error (.TableBlocked "apply_table_with" funcName), tr)
        | (.ok true, tr) =>
          let tfProbe := TableFunctionExists cat funcName
          if tfProbe.1 = false then
            let classified := GetCallableFunctionType cat funcName
            if classified.1 ≠ .INVALID then
              (.error (.WrongCategory "apply_table_with" funcName), tr ++ tfProbe.2 ++ classified.2)
            else
              (.error (.TableNotFound "apply_table_with" funcName), tr ++ tfProbe.2 ++ classified.2)
          else
            let kwargsVal := ApplyTableWithKwargs inputs namedParams
            let positionalFragments :=
              match argsVal with
              | .vlist xs => listParts xs
              | _ => []
            let kwargFragments :=
              match kwargsVal with
              | .vstruct fs => fieldParts fs
              | _ => []
            let sql := "SELECT * FROM " ++ funcName ++ "("
              ++ joinParts (positionalFragments ++ kwargFragments) ++ ")"
            if parseOk sql then (.ok sql, tr ++ tfProbe.2)
            else (.error (.ParseFail "apply_table_with"), tr ++ tfProbe.2)
    | _ => (.error .UnexpectedInput, [])

/-! ## Concrete fixtures used by witnesses and counterexamples -/

/-- An engine oracle that is never successfully consulted. -/
def stubEngine : Engine :=
  ⟨fun _ _ => .error (.EngineFailure "unused"),
   fun _ _ => .error (.EngineFailure "unused")⟩

/-- A catalog with no entries and no user database. -/
def emptyCatalog : ExtCatalog := ⟨fun _ _ => none, fun _ _ => none, false⟩

/-- A parser oracle that accepts everything. -/
def acceptAll : String → Bool := fun _ => true

/-- A locked configuration. -/
def lockedCfg : FuncApplySecurityConfig :=
  { defaultSecurityConfig with locked := true }

/-- A blacklist-mode configuration with the default (seeded) blacklist. -/
def blCfg : FuncApplySecurityConfig :=
  { defaultSecurityConfig with mode := "blacklist" }

/-- A whitelist-mode configuration allowing only `upper`. -/
def wlCfg : FuncApplySecurityConfig :=
  { defaultSecurityConfig with mode := "whitelist", whitelist := ["upper"] }

/-- A blacklist-mode configuration whose blacklist was emptied. -/
def blEmptyCfg : FuncApplySecurityConfig :=
  { defaultSecurityConfig with mode := "blacklist", blacklist := [] }

/-- Blacklist mode returning NULL for blocked calls. -/
def blNullCfg : FuncApplySecurityConfig :=
  { defaultSecurityConfig with mode := "blacklist", on_block := "null" }

/-- Blacklist mode returning a stored default for blocked calls. -/
def blDefCfg : FuncApplySecurityConfig :=
  { defaultSecurityConfig with
      mode := "blacklist",
      on_block := "default",
      block_default := .vint 42 }

/-- A catalog where `my_rows` exists only as a table function. -/
def tableOnlyCatalog : ExtCatalog :=
  ⟨fun ty n =>
     if n = "my_rows" ∧ ty = .TABLE_FUNCTION_ENTRY then
       some .TABLE_FUNCTION_ENTRY
     else none,
   fun _ _ => none, false⟩

/-- A catalog where `range` exists as a scalar function, a macro and a
table function at once. -/
def dualCatalog : ExtCatalog :=
  ⟨fun ty n =>
     if n = "range" then
       match ty with
       | .SCALAR_FUNCTION_ENTRY => some .SCALAR_FUNCTION_ENTRY
       | .TABLE_FUNCTION_ENTRY => some .TABLE_FUNCTION_ENTRY
       | .MACRO_ENTRY => some .MACRO_ENTRY
       | _ => none
     else none,
   fun _ _ => none, false⟩

/-- A config in validator mode with no validator configured. -/
def valCfgEmpty : FuncApplySecurityConfig :=
  { defaultSecurityConfig with mode := "validator" }

/-- A config in validator mode delegating to `check_fn`. -/
def valCfg : FuncApplySecurityConfig :=
  { defaultSecurityConfig with
      mode := "validator",
      validator_func := "check_fn" }

/-- A catalog where `check_fn` exists as a scalar function. -/
def valCatalog : ExtCatalog :=
  ⟨fun ty n =>
     if n = "check_fn" ∧ ty = .SCALAR_FUNCTION_ENTRY then
       some .SCALAR_FUNCTION_ENTRY
     else none,
   fun _ _ => none, false⟩

/-- An engine whose scalar evaluation always returns boolean true. -/
def engTrue : Engine :=
  ⟨fun _ _ => .ok (.vbool true), fun _ _ => .error (.EngineFailure "unused")⟩

/-- An engine whose scalar evaluation always returns NULL. -/
def engNull : Engine :=
  ⟨fun _ _ => .ok .vnull, fun _ _ => .error (.EngineFailure "unused")⟩

/-- A syntactically invalid callable name (contains a space). -/
def badName : String := String.mk ['b', 'a', 'd', ' ', 'n', 'a', 'm', 'e']

/-- A validator-mode config whose configured validator name is invalid. -/
def valBadCfg : FuncApplySecurityConfig :=
  { defaultSecurityConfig with
      mode := "validator",
      validator_func := badName }

/-- A STRUCT whose child name contains a single quote — the codec does
not escape child names. -/
def badStruct : Value :=
  .vstruct (.cons (String.mk ['a', quoteChar, 'b']) .vnull .nil)

/-- A BLOB whose rendered text contains a single quote — the codec's BLOB
branch does not escape it. -/
def badBlob : Value := .vblob (String.mk ['a', quoteChar, 'b'])

/-- A floating-point infinity: its rendering `inf` is embedded unquoted
and is not a numeral of the grammar. -/
def badFloat : Value := .vfloat "inf"

/-- A nested sample: a record holding a list with an embedded-quote
string, a negative integer, a null, a boolean, a float, a timestamp, a
blob and a fallback-cast value with an embedded-quote text. -/
def nestedSample : Value :=
  .vstruct (.cons "k"
    (.vlist (.cons (.vstr (String.mk ['a', quoteChar, 'b']))
      (.cons (.vint (-5)) (.cons .vnull (.cons (.vbool true)
        (.cons (.vfloat "-2.5e10")
          (.cons (.vtemporal .timestamp "2020-01-01 12:34:56")
            (.cons (.vblob "AB")
              (.cons (.vcast "UUID" (String.mk ['x', quoteChar, 'y']))
                .nil)))))))))
    .nil)

/-! ## C3: the lock is one-way and freezes every field -/

/-- C3: for every session, once the SecurityConfig is locked, every
subsequent setter call fails with Locked — leaving the configuration
unchanged, since a failing setter produces no updated state — and a
second lock fails with AlreadyLocked. -/
theorem c3_locked_config_immutable (c : FuncApplySecurityConfig)
    (h : c.locked = true) :
    (∀ m, SetSecurityMode c m = .error .Locked) ∧
    (∀ l, SetBlacklist c l = .error .Locked) ∧
    (∀ l, SetWhitelist c l = .error .Locked) ∧
    (∀ n, SetValidator c n = .error .Locked) ∧
    (∀ b, SetOnBlock c b = .error .Locked) ∧
    (∀ v, SetBlockDefault c v = .error .Locked) ∧
    LockSecurity c = .error .AlreadyLocked := by
  refine ⟨fun m => ?_, fun l => ?_, fun l => ?_, fun n => ?_, fun b => ?_,
    fun v => ?_, ?_⟩ <;>
    simp [SetSecurityMode, SetBlacklist, SetWhitelist, SetValidator,
      SetOnBlock, SetBlockDefault, LockSecurity, h]

/-- C3 witness: the theorem applied to a concrete locked configuration. -/
theorem c3_locked_config_immutable_witness :
    lockedCfg.locked = true ∧
    SetSecurityMode lockedCfg "whitelist" = .error .Locked ∧
    SetBlacklist lockedCfg (some []) = .error .Locked ∧
    SetWhitelist lockedCfg none = .error .Locked ∧
    SetValidator lockedCfg "my_validator" = .error .Locked ∧
    SetOnBlock lockedCfg "null" = .error .Locked ∧
    SetBlockDefault lockedCfg .vnull = .error .Locked ∧
    LockSecurity lockedCfg = .error .AlreadyLocked := by
  have h := c3_locked_config_immutable lockedCfg rfl
  exact ⟨rfl, h.1 _, h.2.1 _, h.2.2.1 _, h.2.2.2.1 _, h.2.2.2.2.1 _,
    h.2.2.2.2.2.1 _, h.2.2.2.2.2.2⟩

/-! ## C4: the three list-based validation modes -/

/-- C4: `ValidateFunctionCall` allows everything in mode `none`; in mode
`blacklist` it allows exactly the names whose case-folded form is not
blacklisted (so an empty blacklist blocks nothing); in mode `whitelist`
it allows exactly the names whose case-folded form is whitelisted. -/
theorem c4_validate_list_modes (eng : Engine) (cat : ExtCatalog)
    (cfg : FuncApplySecurityConfig) (name : String) (args : List Value) :
    (cfg.mode = "none" →
      ValidateFunctionCall eng cat cfg name args [] = (.ok true, [])) ∧
    (cfg.mode = "blacklist" →
      ((ValidateFunctionCall eng cat cfg name args []).1 = .ok true ↔
        strLower name ∉ cfg.blacklist)) ∧
    (cfg.mode = "whitelist" →
      ((ValidateFunctionCall eng cat cfg name args []).1 = .ok true ↔
        strLower name ∈ cfg.whitelist)) ∧
    (cfg.mode = "blacklist" → cfg.blacklist = [] →
      (ValidateFunctionCall eng cat cfg name args []).1 = .ok true) := by
  refine ⟨fun h => ?_, fun h => ?_, fun h => ?_, fun h hbl => ?_⟩
  · simp [ValidateFunctionCall, h]
  · by_cases hm : strLower name ∈ cfg.blacklist
    · by_cases hob : cfg.on_block = "error" <;>
        simp [ValidateFunctionCall, h, hm, hob]
    · simp [ValidateFunctionCall, h, hm]
  · by_cases hm : strLower name ∈ cfg.whitelist
    · simp [ValidateFunctionCall, h, hm]
    · by_cases hob : cfg.on_block = "error" <;>
        simp [ValidateFunctionCall, h, hm, hob]
  · simp [ValidateFunctionCall, h, hbl]

/-- C4 witness: the theorem applied at concrete configurations — default
mode allows `system`; blacklist mode blocks case-folded `SYSTEM`; the
whitelist admits exactly its members; an emptied blacklist blocks
nothing. -/
theorem c4_validate_list_modes_witness :
    ValidateFunctionCall stubEngine emptyCatalog defaultSecurityConfig
      "system" [] [] = (.ok true, []) ∧
    ((ValidateFunctionCall stubEngine emptyCatalog blCfg "SYSTEM" [] []).1 =
      .ok true ↔ strLower "SYSTEM" ∉ blCfg.blacklist) ∧
    ((ValidateFunctionCall stubEngine emptyCatalog wlCfg "upper" [] []).1 =
      .ok true ↔ strLower "upper" ∈ wlCfg.whitelist) ∧
    (ValidateFunctionCall stubEngine emptyCatalog blEmptyCfg "system" [] []).1 =
      .ok true := by
  refine ⟨?_, ?_, ?_, ?_⟩
  · exact (c4_validate_list_modes stubEngine emptyCatalog defaultSecurityConfig
      "system" []).1 rfl
  · exact (c4_validate_list_modes stubEngine emptyCatalog blCfg "SYSTEM" []).2.1 rfl
  · exact (c4_validate_list_modes stubEngine emptyCatalog wlCfg "upper" []).2.2.1 rfl
  · exact (c4_validate_list_modes stubEngine emptyCatalog blEmptyCfg
      "system" []).2.2.2 rfl rfl

/-! ## C6: blocked scalar calls and the three on-block behaviors -/

/-- C6: when the list-based security policy disallows a scalar invoke,
on-block `error` raises Blocked naming the function and the mode,
on-block `null` returns the null value, and on-block `default` returns
the stored block default — in the latter two cases with an empty event
trace: the named callable is neither resolved nor invoked. -/
theorem c6_blocked_value_behaviors (eng : Engine) (cat : ExtCatalog)
    (cfg : FuncApplySecurityConfig) (name : String) (args : List Value)
    (hdis : (cfg.mode = "blacklist" ∧ strLower name ∈ cfg.blacklist) ∨
            (cfg.mode = "whitelist" ∧ strLower name ∉ cfg.whitelist)) :
    (cfg.on_block = "error" →
      ExecuteFunctionInternal eng cat cfg name args false =
        (.error (.Blocked name cfg.mode), [])) ∧
    (cfg.on_block = "null" →
      ExecuteFunctionInternal eng cat cfg name args false = (.ok .vnull, [])) ∧
    (cfg.on_block = "default" →
      ExecuteFunctionInternal eng cat cfg name args false =
        (.ok cfg.block_default, [])) := by
  have hval : ValidateFunctionCall eng cat cfg name args [] =
      (if cfg.on_block = "error" then (.error (.Blocked name cfg.mode), [])
       else (.ok false, [])) := by
    rcases hdis with ⟨hm, hmem⟩ | ⟨hm, hmem⟩ <;>
      by_cases hob : cfg.on_block = "error" <;>
        simp [ValidateFunctionCall, hm, hmem, hob]
  refine ⟨fun hob => ?_, fun hob => ?_, fun hob => ?_⟩ <;>
    simp [ExecuteFunctionInternal, hval, hob, GetBlockedValue]

/-- C6 witness: `system` is in the seeded blacklist; the three on-block
behaviors at concrete configurations. -/
theorem c6_blocked_value_behaviors_witness :
    ExecuteFunctionInternal stubEngine emptyCatalog blCfg "system" [] false =
      (.error (.Blocked "system" "blacklist"), []) ∧
    ExecuteFunctionInternal stubEngine emptyCatalog blNullCfg "system" [] false =
      (.ok .vnull, []) ∧
    ExecuteFunctionInternal stubEngine emptyCatalog blDefCfg "system" [] false =
      (.ok (.vint 42), []) := by
  refine ⟨?_, ?_, ?_⟩
  · exact (c6_blocked_value_behaviors stubEngine emptyCatalog blCfg "system" []
      (Or.inl ⟨rfl, by decide⟩)).1 rfl
  · exact (c6_blocked_value_behaviors stubEngine emptyCatalog blNullCfg "system" []
      (Or.inl ⟨rfl, by decide⟩)).2.1 rfl
  · exact (c6_blocked_value_behaviors stubEngine emptyCatalog blDefCfg "system" []
      (Or.inl ⟨rfl, by decide⟩)).2.2 rfl

/-! ## C7: unregistered names — exists is false and invoke raises NotFound -/

/-- C7: a syntactically valid name registered in no lookup scope makes
`function_exists` report false and `invoke` (under the default, mode-none
configuration) fail with NotFound; and a name resolving neither as scalar
nor macro while existing as a table function makes the dispatch core fail
with NotFound carrying the use-apply-table hint. -/
theorem c7_unregistered_notfound (eng : Engine) (cat : ExtCatalog)
    (name : String) (args : List Value)
    (hvalid : IsValidIdentifier name = true) :
    ((∀ ty, cat.sysLookup ty name = none) →
     (∀ ty, cat.userLookup ty name = none) →
      (CheckFunctionExists cat name).1 = false ∧
      (ExecuteFunctionInternal eng cat defaultSecurityConfig name args false).1 =
        .error (.NotFound name false)) ∧
    ((GetCallableFunctionType cat name).1 = .INVALID →
      (TableFunctionExists cat name).1 = true →
      (ExecuteFunctionCore eng cat name args).1 = .error (.NotFound name true)) := by
  constructor
  · intro hsys huser
    have hne : ¬ name = "" := by
      intro h
      rw [h] at hvalid
      simp [IsValidIdentifier] at hvalid
    have hfe1 : ∀ ty, (FunctionExistsOfType cat name ty).1 = false := by
      intro ty
      by_cases hdb : cat.hasUserDb <;>
        simp [FunctionExistsOfType, entryMatches, hsys, huser, hdb]
    constructor
    · by_cases hdb : cat.hasUserDb <;>
        simp [CheckFunctionExists, CheckFunctionExistsInCatalog, functionTypes,
          hne, hsys, huser, hdb]
    · have hv : ValidateFunctionCall eng cat defaultSecurityConfig name args [] =
          (.ok true, []) := by
        simp [ValidateFunctionCall, defaultSecurityConfig]
      simp [ExecuteFunctionInternal, hv, ExecuteFunctionCore,
        GetCallableFunctionType, TableFunctionExists, hfe1]
  · intro hinv htf
    simp [ExecuteFunctionCore, TableFunctionExists] at htf ⊢
    simp [hinv, htf]

/-- C7 witness: `no_such_fn` in an empty catalog, and `my_rows` in a
catalog where it exists only as a table function. -/
theorem c7_unregistered_notfound_witness :
    (CheckFunctionExists emptyCatalog "no_such_fn").1 = false ∧
    (ExecuteFunctionInternal stubEngine emptyCatalog defaultSecurityConfig
      "no_such_fn" [] false).1 = .error (.NotFound "no_such_fn" false) ∧
    (ExecuteFunctionCore stubEngine tableOnlyCatalog "my_rows" []).1 =
      .error (.NotFound "my_rows" true) := by
  have h1 := (c7_unregistered_notfound stubEngine emptyCatalog "no_such_fn" []
    (by decide)).1 (fun _ => rfl) (fun _ => rfl)
  have h2 := (c7_unregistered_notfound stubEngine tableOnlyCatalog "my_rows" []
    (by decide)).2 (by decide) (by decide)
  exact ⟨h1.1, h1.2, h2⟩

/-! ## C8: classification precedence and probe discipline -/

/-- Every event a `FunctionExistsOfType` probe records is a lookup of the
probed name at the requested type. -/
theorem FunctionExistsOfType_trace (cat : ExtCatalog) (name : String)
    (ty : CatalogType) :
    ∀ ev ∈ (FunctionExistsOfType cat name ty).2,
      ev = .lookup true ty name ∨ ev = .lookup false ty name := by
  intro ev hev
  by_cases h1 : entryMatches (cat.sysLookup ty name) ty
  · simp [FunctionExistsOfType, h1] at hev
    simp [hev]
  · by_cases hdb : cat.hasUserDb
    · simp [FunctionExistsOfType, h1, hdb] at hev
      rcases hev with h | h <;> simp [h]
    · simp [FunctionExistsOfType, h1, hdb] at hev
      simp [hev]

/-- C8: `GetCallableFunctionType` probes SCALAR before MACRO and never
probes TABLE_FUNCTION: a name existing as a scalar classifies as Scalar
even when it also exists as a macro or as a table function; the result is
INVALID exactly when neither the scalar nor the macro probe hits; and no
recorded probe requests any type other than SCALAR or MACRO. -/
theorem c8_classify_precedence (cat : ExtCatalog) (name : String) :
    ((FunctionExistsOfType cat name .SCALAR_FUNCTION_ENTRY).1 = true →
      (GetCallableFunctionType cat name).1 = .SCALAR_FUNCTION_ENTRY) ∧
    ((FunctionExistsOfType cat name .SCALAR_FUNCTION_ENTRY).1 = true ∧
      (FunctionExistsOfType cat name .MACRO_ENTRY).1 = true →
      (GetCallableFunctionType cat name).1 = .SCALAR_FUNCTION_ENTRY) ∧
    ((FunctionExistsOfType cat name .SCALAR_FUNCTION_ENTRY).1 = true ∧
      (TableFunctionExists cat name).1 = true →
      (GetCallableFunctionType cat name).1 = .SCALAR_FUNCTION_ENTRY) ∧
    ((GetCallableFunctionType cat name).1 = .INVALID ↔
      (FunctionExistsOfType cat name .SCALAR_FUNCTION_ENTRY).1 = false ∧
      (FunctionExistsOfType cat name .MACRO_ENTRY).1 = false) ∧
    (∀ sc ty n, CatalogEvent.lookup sc ty n ∈ (GetCallableFunctionType cat name).2 →
      ty = .SCALAR_FUNCTION_ENTRY ∨ ty = .MACRO_ENTRY) := by
  refine ⟨fun hs => by simp [GetCallableFunctionType, hs],
    fun hs => by simp [GetCallableFunctionType, hs.1],
    fun hs => by simp [GetCallableFunctionType, hs.1], ?_, ?_⟩
  · by_cases hs : (FunctionExistsOfType cat name .SCALAR_FUNCTION_ENTRY).1 <;>
      by_cases hm : (FunctionExistsOfType cat name .MACRO_ENTRY).1 <;>
        simp [GetCallableFunctionType, hs, hm]
  · intro sc ty n hmem
    have htr : ∀ ty0, CatalogEvent.lookup sc ty n ∈
        (FunctionExistsOfType cat name ty0).2 → ty = ty0 := by
      intro ty0 h0
      rcases FunctionExistsOfType_trace cat name ty0 _ h0 with h | h <;>
        simp only [CatalogEvent.lookup.injEq] at h <;> exact h.2.1
    by_cases hs : (FunctionExistsOfType cat name .SCALAR_FUNCTION_ENTRY).1
    · simp [GetCallableFunctionType, hs] at hmem
      exact Or.inl (htr _ hmem)
    · by_cases hm : (FunctionExistsOfType cat name .MACRO_ENTRY).1
      · simp [GetCallableFunctionType, hs, hm, List.mem_append] at hmem
        rcases hmem with h | h
        · exact Or.inl (htr _ h)
        · exact Or.inr (htr _ h)
      · simp [GetCallableFunctionType, hs, hm, List.mem_append] at hmem
        rcases hmem with h | h
        · exact Or.inl (htr _ h)
        · exact Or.inr (htr _ h)

/-- C8 witness: in a catalog where `range` is simultaneously a scalar
function, a macro and a table function, classification returns Scalar,
and every recorded probe requests SCALAR or MACRO. -/
theorem c8_classify_precedence_witness :
    (FunctionExistsOfType dualCatalog "range" .SCALAR_FUNCTION_ENTRY).1 = true ∧
    (TableFunctionExists dualCatalog "range").1 = true ∧
    (GetCallableFunctionType dualCatalog "range").1 = .SCALAR_FUNCTION_ENTRY := by
  refine ⟨by decide, by decide, ?_⟩
  exact (c8_classify_precedence dualCatalog "range").2.2.1 ⟨by decide, by decide⟩

/-! ## C5: validator mode -/

/-- C5: in validator mode, validation fails with Misconfigured when no
validator name is set; otherwise the skip-security invocation used for
the validator hop is exactly the unchecked dispatch core, the call
descriptor is built by `BuildValidatorParams`, a NULL validator result
counts as not allowed, a boolean result is the decision, and a raised
validator error propagates wrapped with the validator's name. -/
theorem c5_validator_mode (eng : Engine) (cat : ExtCatalog)
    (cfg : FuncApplySecurityConfig) (name : String) (args : List Value)
    (namedArgs : List (String × Value)) (hmode : cfg.mode = "validator") :
    (cfg.validator_func = "" →
      ValidateFunctionCall eng cat cfg name args namedArgs =
        (.error .Misconfigured, [])) ∧
    (cfg.validator_func ≠ "" →
      (∀ n a, ExecuteFunctionInternal eng cat cfg n a true =
        ExecuteFunctionCore eng cat n a) ∧
      ((ExecuteFunctionCore eng cat cfg.validator_func
          [.vstr name, BuildValidatorParams args namedArgs]).1 = .ok .vnull →
        (ValidateFunctionCall eng cat cfg name args namedArgs).1 =
          (if cfg.on_block = "error" then .error (.Blocked name "validator")
           else .ok false)) ∧
      (∀ b, (ExecuteFunctionCore eng cat cfg.validator_func
          [.vstr name, BuildValidatorParams args namedArgs]).1 = .ok (.vbool b) →
        (ValidateFunctionCall eng cat cfg name args namedArgs).1 =
          (if b then .ok true
           else if cfg.on_block = "error" then .error (.Blocked name "validator")
           else .ok false)) ∧
      (∀ e, (ExecuteFunctionCore eng cat cfg.validator_func
          [.vstr name, BuildValidatorParams args namedArgs]).1 = .error e →
        (ValidateFunctionCall eng cat cfg name args namedArgs).1 =
          .error (.ValidatorFailed cfg.validator_func e))) := by
  constructor
  · intro hv
    simp [ValidateFunctionCall, hmode, hv]
  · intro hne
    refine ⟨fun n a => by simp [ExecuteFunctionInternal], ?_, ?_, ?_⟩
    · intro hc
      rcases hcore : ExecuteFunctionCore eng cat cfg.validator_func
          [.vstr name, BuildValidatorParams args namedArgs] with ⟨res, tr⟩
      rw [hcore] at hc
      simp at hc
      subst hc
      by_cases hob : cfg.on_block = "error" <;>
        simp [ValidateFunctionCall, hmode, hne, CallValidator, hcore, hob]
    · intro b hc
      rcases hcore : ExecuteFunctionCore eng cat cfg.validator_func
          [.vstr name, BuildValidatorParams args namedArgs] with ⟨res, tr⟩
      rw [hcore] at hc
      simp at hc
      subst hc
      cases b <;> by_cases hob : cfg.on_block = "error" <;>
        simp [ValidateFunctionCall, hmode, hne, CallValidator, hcore, hob]
    · intro e hc
      rcases hcore : ExecuteFunctionCore eng cat cfg.validator_func
          [.vstr name, BuildValidatorParams args namedArgs] with ⟨res, tr⟩
      rw [hcore] at hc
      simp at hc
      subst hc
      simp [ValidateFunctionCall, hmode, hne, CallValidator, hcore]

/-- C5 witness: a missing validator is Misconfigured; a validator that
evaluates to true allows the call; one that evaluates to NULL blocks it
(on-block `error` raises Blocked). -/
theorem c5_validator_mode_witness :
    ValidateFunctionCall stubEngine emptyCatalog valCfgEmpty "upper" [] [] =
      (.error .Misconfigured, []) ∧
    (ValidateFunctionCall engTrue valCatalog valCfg "upper" [] []).1 = .ok true ∧
    (ValidateFunctionCall engNull valCatalog valCfg "upper" [] []).1 =
      .error (.Blocked "upper" "validator") := by
  refine ⟨?_, ?_, ?_⟩
  · exact (c5_validator_mode stubEngine emptyCatalog valCfgEmpty "upper" [] []
      rfl).1 rfl
  · exact ((c5_validator_mode engTrue valCatalog valCfg "upper" [] [] rfl).2
      (by decide)).2.2.1 true rfl
  · exact ((c5_validator_mode engNull valCatalog valCfg "upper" [] [] rfl).2
      (by decide)).2.1 rfl

/-! ## C9: the direct structured entry point rejects named arguments -/

/-- C9: a call to `apply_with` whose kwargs record is non-empty fails
with the named-parameters-unsupported error, with an empty event trace:
the named callable is never invoked. -/
theorem c9_kwargs_unsupported (eng : Engine) (cat : ExtCatalog)
    (cfg : FuncApplySecurityConfig) (name : String) (argsVal : Value)
    (k : String) (v : Value) (fs : FieldList)
    (hvalid : IsValidIdentifier name = true) :
    ApplyWithScalarRow eng cat cfg (.vstr name) argsVal true
      (.vstruct (.cons k v fs)) = (.error .KwargsUnsupported, []) := by
  simp [ApplyWithScalarRow, hvalid, FieldList.isEmpty]

/-- C9 witness: `apply_with` on `upper` with a one-field kwargs record. -/
theorem c9_kwargs_unsupported_witness :
    IsValidIdentifier "upper" = true ∧
    ApplyWithScalarRow stubEngine emptyCatalog defaultSecurityConfig
      (.vstr "upper") (.vlist .nil) true (.vstruct (.cons "x" .vnull .nil)) =
      (.error .KwargsUnsupported, []) := by
  exact ⟨by decide, c9_kwargs_unsupported stubEngine emptyCatalog
    defaultSecurityConfig "upper" (.vlist .nil) "x" .vnull .nil (by decide)⟩

/-! ## C10: blocked table calls always raise, never substitute -/

/-- C10: when the security policy disallows a table-call entry point
invocation, the bind step raises an error whatever the on-block behavior:
a validation verdict of "blocked without raising" (on-block null/default)
becomes the blocked-by-security-policy bind error, and a raising verdict
propagates — no substitute value and no row set is produced. -/
theorem c10_table_blocked_always_errors (eng : Engine) (cat : ExtCatalog)
    (cfg : FuncApplySecurityConfig) (parseOk : String → Bool) (name : String)
    (rest : List Value) (inputs : List Value)
    (namedParams : List (String × Value))
    (hvalid : IsValidIdentifier name = true) :
    ((ValidateFunctionCall eng cat cfg name rest []).1 = .ok false →
      (ApplyTableBindReplace eng cat cfg parseOk (.vstr name :: rest)
        namedParams).1 = .error (.TableBlocked "apply_table" name)) ∧
    (∀ e, (ValidateFunctionCall eng cat cfg name rest []).1 = .error e →
      (ApplyTableBindReplace eng cat cfg parseOk (.vstr name :: rest)
        namedParams).1 = .error e) ∧
    ((ValidateFunctionCall eng cat cfg name
        (argsListChildren (ApplyTableWithArgsList (.vstr name :: inputs)
          namedParams)) []).1 = .ok false →
      (ApplyTableWithBindReplace eng cat cfg parseOk (.vstr name :: inputs)
        namedParams).1 = .error (.TableBlocked "apply_table_with" name)) ∧
    (∀ e, (ValidateFunctionCall eng cat cfg name
        (argsListChildren (ApplyTableWithArgsList (.vstr name :: inputs)
          namedParams)) []).1 = .error e →
      (ApplyTableWithBindReplace eng cat cfg parseOk (.vstr name :: inputs)
        namedParams).1 = .error e) := by
  refine ⟨?_, ?_, ?_, ?_⟩
  · intro h
    rcases hval : ValidateFunctionCall eng cat cfg name rest [] with ⟨res, tr⟩
    rw [hval] at h
    simp at h
    subst h
    simp [ApplyTableBindReplace, hvalid, hval]
  · intro e h
    rcases hval : ValidateFunctionCall eng cat cfg name rest [] with ⟨res, tr⟩
    rw [hval] at h
    simp at h
    subst h
    simp [ApplyTableBindReplace, hvalid, hval]
  · intro h
    rcases hval : ValidateFunctionCall eng cat cfg name
        (argsListChildren (ApplyTableWithArgsList (.vstr name :: inputs)
          namedParams)) [] with ⟨res, tr⟩
    rw [hval] at h
    simp at h
    subst h
    simp [ApplyTableWithBindReplace, hvalid, hval]
  · intro e h
    rcases hval : ValidateFunctionCall eng cat cfg name
        (argsListChildren (ApplyTableWithArgsList (.vstr name :: inputs)
          namedParams)) [] with ⟨res, tr⟩
    rw [hval] at h
    simp at h
    subst h
    simp [ApplyTableWithBindReplace, hvalid, hval]

/-- C10 witness: blocked `system` under on-block null still raises from
both table entry points, and under on-block error the Blocked error
propagates. -/
theorem c10_table_blocked_always_errors_witness :
    (ApplyTableBindReplace stubEngine emptyCatalog blNullCfg acceptAll
      [.vstr "system"] []).1 = .error (.TableBlocked "apply_table" "system") ∧
    (ApplyTableBindReplace stubEngine emptyCatalog blCfg acceptAll
      [.vstr "system"] []).1 = .error (.Blocked "system" "blacklist") ∧
    (ApplyTableWithBindReplace stubEngine emptyCatalog blNullCfg acceptAll
      [.vstr "system"] []).1 = .error (.TableBlocked "apply_table_with" "system") ∧
    (ApplyTableWithBindReplace stubEngine emptyCatalog blCfg acceptAll
      [.vstr "system"] []).1 = .error (.Blocked "system" "blacklist") := by
  refine ⟨?_, ?_, ?_, ?_⟩
  · exact (c10_table_blocked_always_errors stubEngine emptyCatalog blNullCfg
      acceptAll "system" [] [] [] (by decide)).1 rfl
  · exact (c10_table_blocked_always_errors stubEngine emptyCatalog blCfg
      acceptAll "system" [] [] [] (by decide)).2.1 _ rfl
  · exact (c10_table_blocked_always_errors stubEngine emptyCatalog blNullCfg
      acceptAll "system" [] [] [] (by decide)).2.2.1 rfl
  · exact (c10_table_blocked_always_errors stubEngine emptyCatalog blCfg
      acceptAll "system" [] [] [] (by decide)).2.2.2 _ rfl

/-! ## C1: identifier checking before catalog access -/

/-- C1 counterexample: the claim fails on the code. The configured
validator name is never identifier-checked: invoking `upper` under a
validator-mode config whose validator name is the invalid `bad name`
performs a catalog lookup of that invalid name; and `function_exists`
likewise looks up an unvalidated name in the catalog (its trace below
probes all four types with the invalid name). -/
theorem c1_counterexample :
    IsValidIdentifier badName = false ∧
    CatalogEvent.lookup true .SCALAR_FUNCTION_ENTRY badName ∈
      (ExecuteFunctionInternal stubEngine emptyCatalog valBadCfg
        "upper" [] false).2 ∧
    (CheckFunctionExists emptyCatalog badName).2 =
      [CatalogEvent.lookup true .SCALAR_FUNCTION_ENTRY badName,
       .lookup true .AGGREGATE_FUNCTION_ENTRY badName,
       .lookup true .TABLE_FUNCTION_ENTRY badName,
       .lookup true .MACRO_ENTRY badName] := by
  refine ⟨by decide, by decide, by decide⟩

/-- C1 as amended: the four apply entry points check the identifier
grammar of their function-name argument before any catalog access — an
invalid name fails with InvalidIdentifier and an empty event trace — but
`function_exists` and the configured validator name are looked up and
invoked without such a check. -/
theorem c1_entrypoint_identifier_check (eng : Engine) (cat : ExtCatalog)
    (cfg : FuncApplySecurityConfig) (parseOk : String → Bool) (name : String)
    (hbad : IsValidIdentifier name = false) :
    (∀ rowArgs, ApplyScalarRow eng cat cfg (.vstr name) rowArgs =
      (.error (.InvalidIdentifier "apply" name), [])) ∧
    (∀ argsVal hasKw kwVal,
      ApplyWithScalarRow eng cat cfg (.vstr name) argsVal hasKw kwVal =
        (.error (.InvalidIdentifier "apply_with" name), [])) ∧
    (∀ rest namedParams,
      ApplyTableBindReplace eng cat cfg parseOk (.vstr name :: rest) namedParams =
        (.error (.InvalidIdentifier "apply_table" name), [])) ∧
    (∀ inputs namedParams,
      ApplyTableWithBindReplace eng cat cfg parseOk (.vstr name :: inputs)
        namedParams = (.error (.InvalidIdentifier "apply_table_with" name), [])) := by
  refine ⟨fun rowArgs => ?_, fun a hk kw => ?_, fun rest np => ?_,
    fun inputs np => ?_⟩
  · simp [ApplyScalarRow, hbad]
  · simp [ApplyWithScalarRow, hbad]
  · simp [ApplyTableBindReplace, hbad]
  · simp [ApplyTableWithBindReplace, hbad]

/-- C1 amended-claim witness: the invalid name `bad name` is rejected
with an empty trace by all four apply entry points. -/
theorem c1_entrypoint_identifier_check_witness :
    IsValidIdentifier badName = false ∧
    ApplyScalarRow stubEngine emptyCatalog defaultSecurityConfig
      (.vstr badName) [] = (.error (.InvalidIdentifier "apply" badName), []) ∧
    ApplyTableBindReplace stubEngine emptyCatalog defaultSecurityConfig
      acceptAll [.vstr badName] [] =
      (.error (.InvalidIdentifier "apply_table" badName), []) := by
  have h := c1_entrypoint_identifier_check stubEngine emptyCatalog
    defaultSecurityConfig acceptAll badName (by decide)
  exact ⟨by decide, h.1 [], h.2.2.1 [] []⟩

/-! ## C2: the codec round-trip law — supporting lemmas -/

/-- The empty remainder is a legitimate boundary. -/
theorem boundary_nil : BoundaryOk [] := trivial

/-- A list separator is a legitimate boundary. -/
theorem boundary_comma (l : List Char) : BoundaryOk (',' :: l) := Or.inl rfl

/-- A list terminator is a legitimate boundary. -/
theorem boundary_close_bracket (l : List Char) : BoundaryOk (']' :: l) :=
  Or.inr (Or.inl rfl)

/-- A record terminator is a legitimate boundary. -/
theorem boundary_close_brace (l : List Char) : BoundaryOk ('}' :: l) :=
  Or.inr (Or.inr rfl)

/-- A boundary never begins with a quote. -/
theorem headNotQuote_of_boundary (rest : List Char) (hb : BoundaryOk rest) :
    headNotQuote rest := by
  cases rest with
  | nil => trivial
  | cons c t =>
    rcases hb with h | h | h <;> subst h
    · show ¬ (',' : Char) = quoteChar
      decide
    · show ¬ (']' : Char) = quoteChar
      decide
    · show ¬ ('}' : Char) = quoteChar
      decide

/-- A boundary never begins with a digit. -/
theorem headFailsDigit_of_boundary (rest : List Char) (hb : BoundaryOk rest) :
    headFails (fun c => c.isDigit) rest := by
  cases rest with
  | nil => trivial
  | cons c t =>
    rcases hb with h | h | h <;> subst h
    · show (',' : Char).isDigit = false
      decide
    · show (']' : Char).isDigit = false
      decide
    · show ('}' : Char).isDigit = false
      decide

/-- `noQuote` as a membership statement. -/
theorem noQuote_forall (l : List Char) (h : noQuote l = true) :
    ∀ c ∈ l, ¬ c = quoteChar := by
  intro c hc
  have h2 := List.all_eq_true.1 h c hc
  simpa using h2

/-- One ordinary-character step of the string-body parser. -/
theorem psb_cons_ne (c : Char) (l : List Char) (hc : ¬ c = quoteChar) :
    parseStringBody (c :: l) =
      match parseStringBody l with
      | some (s, r) => some (c :: s, r)
      | none => none := by
  rw [parseStringBody.eq_def]
  simp only [if_neg hc]

/-- The string-body parser inverts a quote-free body followed by its
closing quote. -/
theorem psb_noquote : ∀ (l rest : List Char), (∀ c ∈ l, ¬ c = quoteChar) →
    headNotQuote rest →
    parseStringBody (l ++ quoteChar :: rest) = some (l, rest) := by
  intro l
  induction l with
  | nil =>
    intro rest hl hr
    cases rest with
    | nil => rfl
    | cons c2 t =>
      show (if c2 = quoteChar then
              match parseStringBody t with
              | some (s, r) => some (quoteChar :: s, r)
              | none => none
            else some ([], c2 :: t)) = some (([] : List Char), c2 :: t)
      rw [if_neg hr]
  | cons c cs ih =>
    intro rest hl hr
    have hc : ¬ c = quoteChar := hl c (by simp)
    rw [List.cons_append, psb_cons_ne c _ hc,
      ih rest (fun d hd => hl d (List.mem_cons_of_mem c hd)) hr]

/-- The string-body parser inverts the quote-doubling escape. -/
theorem psb_escape : ∀ (s rest : List Char), headNotQuote rest →
    parseStringBody (escapeQuotes s ++ quoteChar :: rest) = some (s, rest) := by
  intro s
  induction s with
  | nil =>
    intro rest hr
    exact psb_noquote [] rest (by simp) hr
  | cons c cs ih =>
    intro rest hr
    by_cases hc : c = quoteChar
    · subst hc
      have he : escapeQuotes (quoteChar :: cs) =
          quoteChar :: quoteChar :: escapeQuotes cs := by
        simp [escapeQuotes]
      rw [he, List.cons_append, List.cons_append]
      show (match parseStringBody (escapeQuotes cs ++ quoteChar :: rest) with
            | some (s, r) => some (quoteChar :: s, r)
            | none => none) = some (quoteChar :: cs, rest)
      rw [ih rest hr]
    · have he : escapeQuotes (c :: cs) = c :: escapeQuotes cs := by
        simp [escapeQuotes, hc]
      rw [he, List.cons_append, psb_cons_ne c _ hc, ih rest hr]

/-- Digits below ten render as digit characters. -/
theorem digitChar_isDigit (d : Nat) (h : d < 10) :
    (Nat.digitChar d).isDigit = true := by
  interval_cases d <;> decide

/-- The numeric value of a rendered digit. -/
theorem digitChar_val (d : Nat) (h : d < 10) :
    (Nat.digitChar d).toNat - 48 = d := by
  interval_cases d <;> decide

/-- A digit character is distinct from any non-digit character. -/
theorem digit_head_ne (c : Char) (h : c.isDigit = true) (d : Char)
    (hd : d.isDigit = false) : ¬ c = d := by
  intro he
  rw [he] at h
  simp [hd] at h

/-- Every character `natToDecAux` emits is a digit. -/
theorem natToDecAux_digits : ∀ (fuel n : Nat), ∀ c ∈ natToDecAux fuel n,
    c.isDigit = true := by
  intro fuel
  induction fuel with
  | zero => intro n c hc; simp [natToDecAux] at hc
  | succ g ih =>
    intro n c hc
    by_cases hn : n = 0
    · simp [natToDecAux, hn] at hc
    · simp only [natToDecAux, if_neg hn] at hc
      rcases List.mem_append.1 hc with h | h
      · exact ih _ _ h
      · simp at h
        subst h
        exact digitChar_isDigit _ (Nat.mod_lt n (by omega))

/-- Every character of a rendered natural is a digit. -/
theorem charsOfNat_digits (n : Nat) : ∀ c ∈ charsOfNat n, c.isDigit = true := by
  intro c hc
  by_cases hn : n = 0
  · simp [charsOfNat, hn] at hc
    subst hc
    decide
  · simp only [charsOfNat, if_neg hn] at hc
    exact natToDecAux_digits _ _ _ hc

/-- A rendered natural is never empty. -/
theorem charsOfNat_ne_nil (n : Nat) : charsOfNat n ≠ [] := by
  by_cases hn : n = 0
  · simp [charsOfNat, hn]
  · simp only [charsOfNat, if_neg hn]
    simp [natToDecAux, hn]

/-- Folding the digit-accumulation step over `natToDecAux` recovers the
rendered number (shifted under the starting accumulator). -/
theorem foldl_natToDecAux : ∀ (fuel n a : Nat), n < fuel →
    List.foldl (fun acc c => 10 * acc + (c.toNat - 48)) a (natToDecAux fuel n) =
      a * 10 ^ (natToDecAux fuel n).length + n := by
  intro fuel
  induction fuel with
  | zero => intro n a h; exact absurd h (Nat.not_lt_zero n)
  | succ g ih =>
    intro n a h
    by_cases hn : n = 0
    · subst hn; simp [natToDecAux]
    · simp only [natToDecAux, if_neg hn]
      rw [List.foldl_append]
      have hrec : n / 10 < g := by
        have h1 : n / 10 < n := Nat.div_lt_self (by omega) (by omega)
        omega
      rw [ih (n / 10) a hrec]
      simp only [List.foldl_cons, List.foldl_nil, List.length_append,
        List.length_cons, List.length_nil]
      rw [digitChar_val (n % 10) (Nat.mod_lt n (by omega))]
      rw [pow_succ]
      have hdm := Nat.div_add_mod n 10
      ring_nf
      omega

/-- The digit-run value of a rendered natural is that natural. -/
theorem digitsVal_charsOfNat (n : Nat) : digitsVal (charsOfNat n) = n := by
  by_cases hn : n = 0
  · subst hn; decide
  · simp only [charsOfNat, if_neg hn, digitsVal]
    rw [foldl_natToDecAux (n + 1) n 0 (by omega)]
    simp

/-- `takeWhile`/`dropWhile` split an all-satisfying prefix off exactly at
a failing seam. -/
theorem takeWhile_all_append (p : Char → Bool) :
    ∀ (l rest : List Char), (∀ c ∈ l, p c = true) → headFails p rest →
      (l ++ rest).takeWhile p = l ∧ (l ++ rest).dropWhile p = rest := by
  intro l
  induction l with
  | nil =>
    intro rest hl hr
    cases rest with
    | nil => simp
    | cons c t =>
      have hr2 : p c = false := hr
      constructor
      · simp [List.takeWhile_cons, hr2]
      · simp [List.dropWhile_cons, hr2]
  | cons c cs ih =>
    intro rest hl hr
    have hc : p c = true := hl c (by simp)
    have h2 := ih rest (fun d hd => hl d (List.mem_cons_of_mem c hd)) hr
    constructor
    · simp [List.takeWhile_cons, hc, h2.1]
    · simp [List.dropWhile_cons, hc, h2.2]

/-- A boundary never begins with an exponent sign. -/
theorem headFailsSign_of_boundary (rest : List Char) (hb : BoundaryOk rest) :
    headFails (fun c => decide (c = '+' ∨ c = '-')) rest := by
  cases rest with
  | nil => trivial
  | cons c t =>
    rcases hb with h | h | h <;> subst h
    · show decide ((',' : Char) = '+' ∨ (',' : Char) = '-') = false
      decide
    · show decide ((']' : Char) = '+' ∨ (']' : Char) = '-') = false
      decide
    · show decide (('}' : Char) = '+' ∨ ('}' : Char) = '-') = false
      decide

/-- A boundary never begins with an exponent marker. -/
theorem headFailsE_of_boundary (rest : List Char) (hb : BoundaryOk rest) :
    headFails (fun c => decide (c = 'e')) rest := by
  cases rest with
  | nil => trivial
  | cons c t =>
    rcases hb with h | h | h <;> subst h
    · show decide ((',' : Char) = 'e') = false
      decide
    · show decide ((']' : Char) = 'e') = false
      decide
    · show decide (('}' : Char) = 'e') = false
      decide

/-- A boundary never begins with a type-token character. -/
theorem headFailsToken_of_boundary (rest : List Char) (hb : BoundaryOk rest) :
    headFails isTypeTokenChar rest := by
  cases rest with
  | nil => trivial
  | cons c t =>
    rcases hb with h | h | h <;> subst h
    · show isTypeTokenChar ',' = false
      decide
    · show isTypeTokenChar ']' = false
      decide
    · show isTypeTokenChar '}' = false
      decide

/-- What `dropWhile` leaves begins with a failing character (or is empty). -/
theorem dropWhile_headFails (p : Char → Bool) :
    ∀ l : List Char, headFails p (l.dropWhile p) := by
  intro l
  induction l with
  | nil => trivial
  | cons c t ih =>
    by_cases hc : p c = true
    · have hd : (c :: t).dropWhile p = t.dropWhile p := by
        simp [List.dropWhile_cons, hc]
      rw [hd]
      exact ih
    · have hc2 : p c = false := by simpa using hc
      have hd : (c :: t).dropWhile p = c :: t := by
        simp [List.dropWhile_cons, hc2]
      rw [hd]
      exact hc2

/-- Every member of a `takeWhile` prefix satisfies the predicate. -/
theorem takeWhile_members (p : Char → Bool) :
    ∀ l : List Char, ∀ c ∈ l.takeWhile p, p c = true := by
  intro l
  induction l with
  | nil => intro c hc; simp at hc
  | cons d t ih =>
    intro c hc
    by_cases hd : p d = true
    · rw [List.takeWhile_cons, if_pos hd] at hc
      rcases List.mem_cons.1 hc with h | h
      · subst h; exact hd
      · exact ih c h
    · rw [List.takeWhile_cons, if_neg hd] at hc
      simp at hc

/-- The digit-run parser fails on a non-digit-led input. -/
theorem parseDigits_headFails (l : List Char)
    (h : headFails (fun c => c.isDigit) l) : parseDigits l = none := by
  cases l with
  | nil => rfl
  | cons c t =>
    have hc : c.isDigit = false := h
    simp [parseDigits, List.takeWhile_cons, hc]

/-- The digit-run parser inverts the natural-number renderer. -/
theorem parseDigits_charsOfNat (n : Nat) (rest : List Char)
    (hrest : headFails (fun c => c.isDigit) rest) :
    parseDigits (charsOfNat n ++ rest) = some (charsOfNat n, rest) := by
  have h := takeWhile_all_append (fun c => c.isDigit) (charsOfNat n) rest
    (charsOfNat_digits n) hrest
  simp only [parseDigits]
  rw [h.1, h.2]
  rcases hcs : charsOfNat n with _ | ⟨c, t⟩
  · exact absurd hcs (charsOfNat_ne_nil n)
  · rfl

/-- A successful digit-run parse extends past extra input: the prefix
consumed is unchanged and the extra input lands in the remainder. -/
theorem parseDigits_extend (l rest ds rem : List Char)
    (h : parseDigits l = some (ds, rem))
    (hside : rem = [] → headFails (fun c => c.isDigit) rest) :
    parseDigits (l ++ rest) = some (ds, rem ++ rest) := by
  simp only [parseDigits] at h
  rcases htw : l.takeWhile (fun c => c.isDigit) with _ | ⟨c, t⟩
  · rw [htw] at h
    simp at h
  · rw [htw] at h
    simp only [Option.some.injEq, Prod.mk.injEq] at h
    obtain ⟨hds, hrem⟩ := h
    subst hds
    subst hrem
    have hmem : ∀ d ∈ c :: t, (fun x => x.isDigit) d = true := by
      intro d hd
      exact takeWhile_members _ l d (by rw [htw]; exact hd)
    have hfail : headFails (fun x => x.isDigit)
        (l.dropWhile (fun x => x.isDigit) ++ rest) := by
      cases hr : l.dropWhile (fun x => x.isDigit) with
      | nil => exact hside hr
      | cons d t2 =>
        have hd := dropWhile_headFails (fun x => x.isDigit) l
        rw [hr] at hd
        exact hd
    have hsplit : l ++ rest =
        (c :: t) ++ (l.dropWhile (fun x => x.isDigit) ++ rest) := by
      rw [← List.append_assoc, ← htw, List.takeWhile_append_dropWhile]
    have htd := takeWhile_all_append (fun x => x.isDigit) (c :: t)
      (l.dropWhile (fun x => x.isDigit) ++ rest) hmem hfail
    rw [hsplit]
    simp only [parseDigits]
    rw [htd.1, htd.2]

/-- A failing digit-run parse still fails after non-digit-led input. -/
theorem parseDigits_none_extend (l rest : List Char)
    (h : parseDigits l = none)
    (hrest : headFails (fun c => c.isDigit) rest) :
    parseDigits (l ++ rest) = none := by
  cases l with
  | nil =>
    simp only [List.nil_append]
    exact parseDigits_headFails rest hrest
  | cons c t =>
    have hc : c.isDigit = false := by
      by_contra hcc
      have hcc2 : c.isDigit = true := by simpa using hcc
      simp [parseDigits, List.takeWhile_cons, hcc2] at h
    simp [parseDigits, List.takeWhile_cons, hc]

/-- A successful signed-digit parse extends past extra input. -/
theorem parseSignedDigits_extend (l rest ds rem : List Char)
    (h : parseSignedDigits l = some (ds, rem))
    (hside : rem = [] → headFails (fun c => c.isDigit) rest) :
    parseSignedDigits (l ++ rest) = some (ds, rem ++ rest) := by
  cases l with
  | nil => simp [parseSignedDigits] at h
  | cons c r =>
    by_cases hc : c = '+' ∨ c = '-'
    · simp only [parseSignedDigits] at h
      rw [if_pos hc] at h
      rcases hd : parseDigits r with _ | ⟨ds2, rem2⟩
      · rw [hd] at h
        simp at h
      · rw [hd] at h
        simp only [Option.some.injEq, Prod.mk.injEq] at h
        obtain ⟨h1, h2⟩ := h
        subst h1
        subst h2
        have hext := parseDigits_extend r rest ds2 rem2 hd hside
        show parseSignedDigits (c :: (r ++ rest)) = some (c :: ds2, rem2 ++ rest)
        simp only [parseSignedDigits]
        rw [if_pos hc]
        simp only [hext]
    · simp only [parseSignedDigits] at h
      rw [if_neg hc] at h
      have hext := parseDigits_extend (c :: r) rest ds rem h hside
      show parseSignedDigits (c :: (r ++ rest)) = some (ds, rem ++ rest)
      simp only [parseSignedDigits]
      rw [if_neg hc]
      exact hext

/-- A failing signed-digit parse still fails after boundary-led input. -/
theorem parseSignedDigits_none_extend (l rest : List Char)
    (h : parseSignedDigits l = none)
    (hrest : headFails (fun c => c.isDigit) rest)
    (hsign : headFails (fun c => decide (c = '+' ∨ c = '-')) rest) :
    parseSignedDigits (l ++ rest) = none := by
  cases l with
  | nil =>
    simp only [List.nil_append]
    cases rest with
    | nil => rfl
    | cons c t =>
      have hc1 : c.isDigit = false := hrest
      have hc2 : decide (c = '+' ∨ c = '-') = false := hsign
      have hc3 : ¬ (c = '+' ∨ c = '-') := of_decide_eq_false hc2
      simp only [parseSignedDigits]
      rw [if_neg hc3]
      exact parseDigits_headFails (c :: t) hc1
  | cons c r =>
    by_cases hc : c = '+' ∨ c = '-'
    · simp only [parseSignedDigits] at h
      rw [if_pos hc] at h
      rcases hd : parseDigits r with _ | ⟨ds2, rem2⟩
      · show parseSignedDigits (c :: (r ++ rest)) = none
        simp only [parseSignedDigits]
        rw [if_pos hc, parseDigits_none_extend r rest hd hrest]
      · rw [hd] at h
        simp at h
    · simp only [parseSignedDigits] at h
      rw [if_neg hc] at h
      show parseSignedDigits (c :: (r ++ rest)) = none
      simp only [parseSignedDigits]
      rw [if_neg hc]
      exact parseDigits_none_extend (c :: r) rest h hrest

/-- A successful exponent parse extends past extra input. -/
theorem parseExpPart_extend (l rest es rem : List Char)
    (h : parseExpPart l = some (es, rem))
    (hside : rem = [] → headFails (fun c => c.isDigit) rest) :
    parseExpPart (l ++ rest) = some (es, rem ++ rest) := by
  cases l with
  | nil => simp [parseExpPart] at h
  | cons c r =>
    by_cases hc : c = 'e'
    · subst hc
      simp only [parseExpPart] at h
      rw [if_true] at h
      rcases hd : parseSignedDigits r with _ | ⟨ds2, rem2⟩
      · rw [hd] at h
        simp at h
      · simp only [hd, Option.some.injEq, Prod.mk.injEq] at h
        obtain ⟨h1, h2⟩ := h
        subst h1
        subst h2
        have hext := parseSignedDigits_extend r rest ds2 rem2 hd hside
        show parseExpPart ('e' :: (r ++ rest)) = some ('e' :: ds2, rem2 ++ rest)
        simp only [parseExpPart]
        rw [if_true]
        simp only [hext]
    · simp only [parseExpPart] at h
      rw [if_neg hc] at h
      simp at h

/-- A failing exponent parse still fails after boundary-led input. -/
theorem parseExpPart_none_extend (l rest : List Char)
    (h : parseExpPart l = none)
    (hrest : headFails (fun c => c.isDigit) rest)
    (hsign : headFails (fun c => decide (c = '+' ∨ c = '-')) rest)
    (he : headFails (fun c => decide (c = 'e')) rest) :
    parseExpPart (l ++ rest) = none := by
  cases l with
  | nil =>
    simp only [List.nil_append]
    cases rest with
    | nil => rfl
    | cons c t =>
      have hc : decide (c = 'e') = false := he
      have hc2 : ¬ c = 'e' := of_decide_eq_false hc
      simp only [parseExpPart]
      rw [if_neg hc2]
  | cons c r =>
    by_cases hc : c = 'e'
    · subst hc
      simp only [parseExpPart] at h
      rw [if_true] at h
      rcases hd : parseSignedDigits r with _ | ⟨ds2, rem2⟩
      · show parseExpPart ('e' :: (r ++ rest)) = none
        simp only [parseExpPart]
        rw [if_true, parseSignedDigits_none_extend r rest hd hrest hsign]
      · rw [hd] at h
        simp at h
    · show parseExpPart (c :: (r ++ rest)) = none
      simp only [parseExpPart]
      rw [if_neg hc]

/-- A boundary begins no float tail. -/
theorem parseFloatTail_boundary (rest : List Char) (hb : BoundaryOk rest) :
    parseFloatTail rest = none := by
  cases rest with
  | nil => rfl
  | cons c t => rcases hb with h | h | h <;> subst h <;> rfl

/-- A successful float-tail parse extends past a boundary-led input. -/
theorem parseFloatTail_extend (l rest fs rem : List Char)
    (h : parseFloatTail l = some (fs, rem)) (hb : BoundaryOk rest) :
    parseFloatTail (l ++ rest) = some (fs, rem ++ rest) := by
  have hrest := headFailsDigit_of_boundary rest hb
  have hsign := headFailsSign_of_boundary rest hb
  have he := headFailsE_of_boundary rest hb
  cases l with
  | nil => simp [parseFloatTail] at h
  | cons c r =>
    by_cases hc : c = '.'
    · subst hc
      simp only [parseFloatTail] at h
      rw [if_true] at h
      rcases hd : parseDigits r with _ | ⟨ds2, rem2⟩
      · rw [hd] at h
        simp at h
      · simp only [hd] at h
        rcases hexp : parseExpPart rem2 with _ | ⟨es2, rem3⟩
        · simp only [hexp, Option.some.injEq, Prod.mk.injEq] at h
          obtain ⟨h1, h2⟩ := h
          subst h1
          subst h2
          have hdext := parseDigits_extend r rest ds2 rem2 hd (fun _ => hrest)
          have hexpext := parseExpPart_none_extend rem2 rest hexp hrest hsign he
          show parseFloatTail ('.' :: (r ++ rest)) =
            some ('.' :: ds2, rem2 ++ rest)
          simp only [parseFloatTail]
          rw [if_true]
          simp only [hdext, hexpext]
        · simp only [hexp, Option.some.injEq, Prod.mk.injEq] at h
          obtain ⟨h1, h2⟩ := h
          subst h1
          subst h2
          have hdext := parseDigits_extend r rest ds2 rem2 hd (fun _ => hrest)
          have hexpext := parseExpPart_extend rem2 rest es2 rem3 hexp
            (fun _ => hrest)
          show parseFloatTail ('.' :: (r ++ rest)) =
            some ('.' :: ds2 ++ es2, rem3 ++ rest)
          simp only [parseFloatTail]
          rw [if_true]
          simp only [hdext, hexpext]
    · simp only [parseFloatTail] at h
      rw [if_neg hc] at h
      have hext := parseExpPart_extend (c :: r) rest fs rem h (fun _ => hrest)
      show parseFloatTail (c :: (r ++ rest)) = some (fs, rem ++ rest)
      simp only [parseFloatTail]
      rw [if_neg hc]
      exact hext

/-- The numeral parser inverts the integer renderer (a boundary follows,
so no float tail is picked up). -/
theorem parseNumChars_intToDec (n : Int) (rest : List Char)
    (hb : BoundaryOk rest) :
    parseNumChars (intToDecChars n ++ rest) = some (.vint n, rest) := by
  have hrest := headFailsDigit_of_boundary rest hb
  have hft := parseFloatTail_boundary rest hb
  by_cases hn : n < 0
  · simp only [intToDecChars, if_pos hn, List.cons_append]
    show (match parseDigits (charsOfNat n.natAbs ++ rest) with
          | some (ds, rem) =>
            match parseFloatTail rem with
            | some (fs, rem2) =>
              some (Value.vfloat (String.mk ('-' :: (ds ++ fs))), rem2)
            | none => some (Value.vint (-(digitsVal ds : Int)), rem)
          | none => none) = some (Value.vint n, rest)
    rw [parseDigits_charsOfNat n.natAbs rest hrest]
    show (match parseFloatTail rest with
          | some (fs, rem2) =>
            some (Value.vfloat
              (String.mk ('-' :: (charsOfNat n.natAbs ++ fs))), rem2)
          | none =>
            some (Value.vint (-(digitsVal (charsOfNat n.natAbs) : Int)), rest)) =
        some (Value.vint n, rest)
    rw [hft]
    show some (Value.vint (-(digitsVal (charsOfNat n.natAbs) : Int)), rest) =
      some (Value.vint n, rest)
    rw [digitsVal_charsOfNat]
    have habs : -((n.natAbs : Nat) : Int) = n := by omega
    rw [habs]
  · simp only [intToDecChars, if_neg hn]
    rcases hcs : charsOfNat n.natAbs with _ | ⟨c, t⟩
    · exact absurd hcs (charsOfNat_ne_nil _)
    · have hcdig : c.isDigit = true :=
        charsOfNat_digits _ c (by rw [hcs]; simp)
      have hcd : ¬ c = '-' := digit_head_ne c hcdig '-' (by decide)
      rw [List.cons_append]
      show (if c = '-' then
              match parseDigits (t ++ rest) with
              | some (ds, rem) =>
                match parseFloatTail rem with
                | some (fs, rem2) =>
                  some (Value.vfloat (String.mk ('-' :: (ds ++ fs))), rem2)
                | none => some (Value.vint (-(digitsVal ds : Int)), rem)
              | none => none
            else
              match parseDigits (c :: (t ++ rest)) with
              | some (ds, rem) =>
                match parseFloatTail rem with
                | some (fs, rem2) =>
                  some (Value.vfloat (String.mk (ds ++ fs)), rem2)
                | none => some (Value.vint ((digitsVal ds : Int)), rem)
              | none => none) = some (Value.vint n, rest)
      rw [if_neg hcd, ← List.cons_append, ← hcs,
        parseDigits_charsOfNat n.natAbs rest hrest]
      show (match parseFloatTail rest with
            | some (fs, rem2) =>
              some (Value.vfloat (String.mk (charsOfNat n.natAbs ++ fs)), rem2)
            | none =>
              some (Value.vint ((digitsVal (charsOfNat n.natAbs) : Int)), rest)) =
          some (Value.vint n, rest)
      rw [hft]
      show some (Value.vint ((digitsVal (charsOfNat n.natAbs) : Int)), rest) =
        some (Value.vint n, rest)
      rw [digitsVal_charsOfNat]
      have habs : ((n.natAbs : Nat) : Int) = n := by omega
      rw [habs]

/-- A numeral parse that consumed its whole input consumes exactly that
input when a boundary-led remainder follows. -/
theorem parseNumChars_extend (l rest : List Char) (v : Value)
    (h : parseNumChars l = some (v, [])) (hb : BoundaryOk rest) :
    parseNumChars (l ++ rest) = some (v, rest) := by
  have hrest := headFailsDigit_of_boundary rest hb
  cases l with
  | nil => simp [parseNumChars] at h
  | cons c r =>
    by_cases hc : c = '-'
    · subst hc
      simp only [parseNumChars] at h
      rw [if_true] at h
      rcases hd : parseDigits r with _ | ⟨ds2, rem2⟩
      · rw [hd] at h
        simp at h
      · simp only [hd] at h
        rcases hft : parseFloatTail rem2 with _ | ⟨fs2, rem3⟩
        · simp only [hft, Option.some.injEq, Prod.mk.injEq] at h
          obtain ⟨h1, h2⟩ := h
          subst h1
          subst h2
          have hdext := parseDigits_extend r rest ds2 [] hd (fun _ => hrest)
          have hftb := parseFloatTail_boundary rest hb
          show parseNumChars ('-' :: (r ++ rest)) =
            some (.vint (-(digitsVal ds2 : Int)), rest)
          simp only [parseNumChars]
          rw [if_true]
          simp only [hdext, List.nil_append, hftb]
        · simp only [hft, Option.some.injEq, Prod.mk.injEq] at h
          obtain ⟨h1, h2⟩ := h
          subst h1
          subst h2
          have hdext := parseDigits_extend r rest ds2 rem2 hd (fun _ => hrest)
          have hftext := parseFloatTail_extend rem2 rest fs2 [] hft hb
          rw [List.nil_append] at hftext
          show parseNumChars ('-' :: (r ++ rest)) =
            some (.vfloat (String.mk ('-' :: (ds2 ++ fs2))), rest)
          simp only [parseNumChars]
          rw [if_true]
          simp only [hdext, hftext]
    · simp only [parseNumChars] at h
      rw [if_neg hc] at h
      rcases hd : parseDigits (c :: r) with _ | ⟨ds2, rem2⟩
      · rw [hd] at h
        simp at h
      · simp only [hd] at h
        rcases hft : parseFloatTail rem2 with _ | ⟨fs2, rem3⟩
        · simp only [hft, Option.some.injEq, Prod.mk.injEq] at h
          obtain ⟨h1, h2⟩ := h
          subst h1
          subst h2
          have hdext := parseDigits_extend (c :: r) rest ds2 [] hd
            (fun _ => hrest)
          have hftb := parseFloatTail_boundary rest hb
          show parseNumChars (c :: (r ++ rest)) =
            some (.vint ((digitsVal ds2 : Int)), rest)
          simp only [parseNumChars]
          rw [if_neg hc]
          simp only [← List.cons_append, hdext, List.nil_append, hftb]
        · simp only [hft, Option.some.injEq, Prod.mk.injEq] at h
          obtain ⟨h1, h2⟩ := h
          subst h1
          subst h2
          have hdext := parseDigits_extend (c :: r) rest ds2 rem2 hd
            (fun _ => hrest)
          have hftext := parseFloatTail_extend rem2 rest fs2 [] hft hb
          rw [List.nil_append] at hftext
          show parseNumChars (c :: (r ++ rest)) =
            some (.vfloat (String.mk (ds2 ++ fs2)), rest)
          simp only [parseNumChars]
          rw [if_neg hc]
          simp only [← List.cons_append, hdext, hftext]

/-- A well-formed float text is exactly a complete `vfloat` parse of
itself. -/
theorem isFloatText_parse (l : List Char) (h : isFloatText l = true) :
    parseNumChars l = some (.vfloat (String.mk l), []) := by
  simp only [isFloatText] at h
  rcases hp : parseNumChars l with _ | ⟨v, rem⟩
  · rw [hp] at h
    simp at h
  · rw [hp] at h
    cases v with
    | vnull => simp at h
    | vbool b => simp at h
    | vint n => simp at h
    | vfloat s =>
      simp only [decide_eq_true_eq] at h
      obtain ⟨h1, h2⟩ := h
      subst h1
      obtain ⟨sd⟩ := s
      have h3 : sd = l := h2
      subst h3
      rfl
    | vstr s => simp at h
    | vblob s => simp at h
    | vtemporal k s => simp at h
    | vcast ty s => simp at h
    | vlist xs => simp at h
    | vstruct fs => simp at h

/-- A well-formed float text begins with a sign or a digit. -/
theorem isFloatText_head (l : List Char) (h : isFloatText l = true) :
    ∃ c t, l = c :: t ∧ (c = '-' ∨ c.isDigit = true) := by
  have hp := isFloatText_parse l h
  cases l with
  | nil => simp [parseNumChars] at hp
  | cons c t =>
    by_cases hc : c = '-'
    · exact ⟨c, t, rfl, Or.inl hc⟩
    · refine ⟨c, t, rfl, Or.inr ?_⟩
      simp only [parseNumChars] at hp
      rw [if_neg hc] at hp
      by_cases hcd : c.isDigit = true
      · exact hcd
      · have hcd2 : c.isDigit = false := by simpa using hcd
        have hn : parseDigits (c :: t) = none := parseDigits_headFails _ hcd2
        rw [hn] at hp
        simp at hp

/-- A float head is distinct from any non-digit, non-minus character. -/
theorem float_head_ne (c : Char) (hd : c = '-' ∨ c.isDigit = true) (d : Char)
    (hdd : d.isDigit = false) (hdm : ¬ d = '-') : ¬ c = d := by
  rcases hd with h | h
  · subst h
    intro he
    exact hdm he.symm
  · exact digit_head_ne c h d hdd

/-- The cast-suffix parser on the BLOB token followed by a boundary-led
remainder. -/
theorem parseCastSuffix_blob (body rest : List Char)
    (hrest : headFails isTypeTokenChar rest) :
    parseCastSuffix body (blobSuffix ++ rest) =
      some (.vblob (String.mk body), rest) := by
  have hmem : ∀ c ∈ blobSuffix, isTypeTokenChar c = true := by decide
  have h := takeWhile_all_append isTypeTokenChar blobSuffix rest hmem hrest
  simp only [parseCastSuffix]
  rw [h.1, h.2]
  rfl

/-- The cast-suffix parser on a temporal token followed by a boundary-led
remainder. -/
theorem parseCastSuffix_temporal (k : TemporalKind) (body rest : List Char)
    (hrest : headFails isTypeTokenChar rest) :
    parseCastSuffix body (temporalSuffix k ++ rest) =
      some (.vtemporal k (String.mk body), rest) := by
  have hmem : ∀ c ∈ temporalSuffix k, isTypeTokenChar c = true := by
    cases k <;> decide
  have h := takeWhile_all_append isTypeTokenChar (temporalSuffix k) rest
    hmem hrest
  cases k
  all_goals
    simp only [parseCastSuffix]
    rw [h.1, h.2]
    rfl

/-- The cast-suffix parser on a simple type name followed by a
boundary-led remainder. -/
theorem parseCastSuffix_cast (tyd body rest : List Char)
    (hty : isTypeToken tyd = true)
    (hrest : headFails isTypeTokenChar rest) :
    parseCastSuffix body (tyd ++ rest) =
      some (.vcast (String.mk tyd) (String.mk body), rest) := by
  simp only [isTypeToken, Bool.and_eq_true] at hty
  obtain ⟨⟨hne0, hall⟩, hnot⟩ := hty
  have hne : tyd ≠ [] := of_decide_eq_true hne0
  have hres : reservedSuffix tyd = false := by
    cases hr : reservedSuffix tyd with
    | false => rfl
    | true =>
      rw [hr] at hnot
      exact absurd hnot (by decide)
  have hmem : ∀ c ∈ tyd, isTypeTokenChar c = true := List.all_eq_true.1 hall
  have h := takeWhile_all_append isTypeTokenChar tyd rest hmem hrest
  simp only [reservedSuffix, Bool.or_eq_false_iff,
    decide_eq_false_iff_not] at hres
  obtain ⟨⟨⟨⟨hr1, hr2⟩, hr3⟩, hr4⟩, hr5⟩ := hres
  simp only [parseCastSuffix]
  rw [h.1, h.2]
  rcases hts : tyd with _ | ⟨c, t⟩
  · exact absurd hts hne
  · show (if c :: t = blobSuffix then
            some (Value.vblob (String.mk body), rest)
          else if c :: t = temporalSuffix .date then
            some (Value.vtemporal .date (String.mk body), rest)
          else if c :: t = temporalSuffix .time then
            some (Value.vtemporal .time (String.mk body), rest)
          else if c :: t = temporalSuffix .timestamp then
            some (Value.vtemporal .timestamp (String.mk body), rest)
          else if c :: t = temporalSuffix .interval then
            some (Value.vtemporal .interval (String.mk body), rest)
          else some (Value.vcast (String.mk (c :: t)) (String.mk body), rest)) =
        some (Value.vcast (String.mk (c :: t)) (String.mk body), rest)
    rw [hts] at hr1 hr2 hr3 hr4 hr5
    rw [if_neg hr1, if_neg hr2, if_neg hr3, if_neg hr4, if_neg hr5]

/-- Every encoded good value begins with a character that is not a
collection terminator. -/
theorem encodeChars_head (v : Value) (hv : GoodVal v = true) :
    ∃ c t, encodeChars v = c :: t ∧ ¬ c = ']' ∧ ¬ c = '}' := by
  cases v with
  | vnull => exact ⟨'N', _, rfl, by decide, by decide⟩
  | vbool b =>
    cases b with
    | false => exact ⟨'f', _, rfl, by decide, by decide⟩
    | true => exact ⟨'t', _, rfl, by decide, by decide⟩
  | vint n =>
    by_cases hn : n < 0
    · refine ⟨'-', charsOfNat n.natAbs, ?_, by decide, by decide⟩
      simp [encodeChars, intToDecChars, hn]
    · rcases hcs : charsOfNat n.natAbs with _ | ⟨c, t⟩
      · exact absurd hcs (charsOfNat_ne_nil _)
      · have hcdig : c.isDigit = true :=
          charsOfNat_digits _ c (by rw [hcs]; simp)
        refine ⟨c, t, ?_, digit_head_ne c hcdig ']' (by decide),
          digit_head_ne c hcdig '}' (by decide)⟩
        simp [encodeChars, intToDecChars, hn, hcs]
  | vfloat s =>
    obtain ⟨c, t, heq, hd⟩ := isFloatText_head s.data hv
    exact ⟨c, t, by simp [encodeChars, heq],
      float_head_ne c hd ']' (by decide) (by decide),
      float_head_ne c hd '}' (by decide) (by decide)⟩
  | vstr s => exact ⟨quoteChar, _, rfl, by decide, by decide⟩
  | vblob s => exact ⟨quoteChar, _, rfl, by decide, by decide⟩
  | vtemporal k s => exact ⟨quoteChar, _, rfl, by decide, by decide⟩
  | vcast ty s => exact ⟨quoteChar, _, rfl, by decide, by decide⟩
  | vlist xs => exact ⟨'[', _, rfl, by decide, by decide⟩
  | vstruct fs => exact ⟨'{', _, rfl, by decide, by decide⟩

/-- An encoded nonempty list body begins with its first element's head. -/
theorem encodeListChars_cons_head (x : Value) (tl : ValueList)
    (hx : GoodVal x = true) :
    ∃ c t, encodeListChars (.cons x tl) = c :: t ∧ ¬ c = ']' ∧ ¬ c = '}' := by
  obtain ⟨c, t0, hxe, h1, h2⟩ := encodeChars_head x hx
  cases tl with
  | nil => exact ⟨c, t0, by simp [encodeListChars, hxe], h1, h2⟩
  | cons y tl2 =>
    exact ⟨c, t0 ++ ',' :: ' ' :: encodeListChars (.cons y tl2),
      by simp [encodeListChars, hxe], h1, h2⟩

/-- An encoded nonempty record body begins with a quote. -/
theorem encodeStructChars_cons_head (k : String) (v : Value) (tl : FieldList) :
    ∃ t, encodeStructChars (.cons k v tl) = quoteChar :: t := by
  cases tl with
  | nil => exact ⟨_, rfl⟩
  | cons k2 v2 tl2 => exact ⟨_, rfl⟩

/-- `parseVal` on an opening quote delegates to the string-body parser
and the cast-suffix check. -/
theorem parseVal_dispatch_quote (g : Nat) (l : List Char) :
    parseVal (g + 1) (quoteChar :: l) =
      match parseStringBody l with
      | none => none
      | some (body, rem) =>
        match rem with
        | ':' :: ':' :: rem2 => parseCastSuffix body rem2
        | _ => some (.vstr (String.mk body), rem) := rfl

/-- `parseVal` after `[` on a non-`]` head delegates to the list-tail
parser. -/
theorem parseVal_dispatch_list (g : Nat) (c2 : Char) (l2 : List Char)
    (h : ¬ c2 = ']') :
    parseVal (g + 1) ('[' :: c2 :: l2) =
      match parseListTail g (c2 :: l2) with
      | some (xs, rem) => some (.vlist xs, rem)
      | none => none := by
  show (if c2 = ']' then some (Value.vlist .nil, l2)
        else
          match parseListTail g (c2 :: l2) with
          | some (xs, rem) => some (.vlist xs, rem)
          | none => none) = _
  rw [if_neg h]

/-- `parseVal` after `{` on a non-`}` head delegates to the record-tail
parser. -/
theorem parseVal_dispatch_struct (g : Nat) (c2 : Char) (l2 : List Char)
    (h : ¬ c2 = '}') :
    parseVal (g + 1) ('{' :: c2 :: l2) =
      match parseStructTail g (c2 :: l2) with
      | some (fs, rem) => some (.vstruct fs, rem)
      | none => none := by
  show (if c2 = '}' then some (Value.vstruct .nil, l2)
        else
          match parseStructTail g (c2 :: l2) with
          | some (fs, rem) => some (.vstruct fs, rem)
          | none => none) = _
  rw [if_neg h]

/-- `parseVal` on any head that opens no other production delegates to
the numeral parser. -/
theorem parseVal_dispatch_num (g : Nat) (c : Char) (l : List Char)
    (h1 : ¬ c = quoteChar) (h2 : ¬ c = '[') (h3 : ¬ c = '{')
    (h4 : ¬ c = 'N') (h5 : ¬ c = 't') (h6 : ¬ c = 'f') :
    parseVal (g + 1) (c :: l) = parseNumChars (c :: l) := by
  simp only [parseVal]
  rw [if_neg h1, if_neg h2, if_neg h3, if_neg h4, if_neg h5, if_neg h6]

/-- One fuel step of the list-tail parser, unfolded. -/
theorem parseListTail_succ (g : Nat) (l : List Char) :
    parseListTail (g + 1) l =
      match parseVal g l with
      | none => none
      | some (v, rem) =>
        match rem with
        | ']' :: rem2 => some (.cons v .nil, rem2)
        | ',' :: ' ' :: rem2 =>
          match parseListTail g rem2 with
          | some (xs, rem3) => some (.cons v xs, rem3)
          | none => none
        | _ => none := rfl

/-- One fuel step of the record-tail parser on an opening quote,
unfolded. -/
theorem parseStructTail_quote (g : Nat) (l : List Char) :
    parseStructTail (g + 1) (quoteChar :: l) =
      match parseStringBody l with
      | none => none
      | some (key, rem) =>
        match rem with
        | ':' :: ' ' :: rem2 =>
          match parseVal g rem2 with
          | none => none
          | some (v, rem3) =>
            match rem3 with
            | '}' :: rem4 => some (.cons (String.mk key) v .nil, rem4)
            | ',' :: ' ' :: rem4 =>
              match parseStructTail g rem4 with
              | some (fs, rem5) => some (.cons (String.mk key) v fs, rem5)
              | none => none
            | _ => none
        | _ => none := rfl

/-- The parser inverts the encoder: at sufficient fuel, every good value
followed by a boundary parses back to itself, and likewise for the
nonempty element and field tails of collections. -/
theorem parse_encode_main : ∀ fuel : Nat,
    (∀ v rest, GoodVal v = true → (encodeChars v).length < fuel →
      BoundaryOk rest →
      parseVal fuel (encodeChars v ++ rest) = some (v, rest)) ∧
    (∀ xs rest, GoodList xs = true →
      (encodeListChars xs).length + 1 < fuel → BoundaryOk rest →
      xs ≠ ValueList.nil →
      parseListTail fuel (encodeListChars xs ++ ']' :: rest) = some (xs, rest)) ∧
    (∀ fs rest, GoodFields fs = true →
      (encodeStructChars fs).length + 1 < fuel → BoundaryOk rest →
      fs ≠ FieldList.nil →
      parseStructTail fuel (encodeStructChars fs ++ '}' :: rest) = some (fs, rest)) := by
  intro fuel
  induction fuel with
  | zero =>
    exact ⟨fun v rest _ h _ => absurd h (by omega),
      fun xs rest _ h _ _ => absurd h (by omega),
      fun fs rest _ h _ _ => absurd h (by omega)⟩
  | succ g ih =>
    obtain ⟨ihV, ihL, ihS⟩ := ih
    refine ⟨?_, ?_, ?_⟩
    · intro v rest hgood hlen hb
      cases v with
      | vnull => rfl
      | vbool b => cases b <;> rfl
      | vint n =>
        by_cases hn : n < 0
        · have henc : encodeChars (.vint n) ++ rest =
              '-' :: (charsOfNat n.natAbs ++ rest) := by
            simp [encodeChars, intToDecChars, hn]
          have hint := parseNumChars_intToDec n rest hb
          have hin2 : intToDecChars n ++ rest =
              '-' :: (charsOfNat n.natAbs ++ rest) := by
            simp [intToDecChars, hn]
          rw [hin2] at hint
          rw [henc, parseVal_dispatch_num g '-' _ (by decide) (by decide)
            (by decide) (by decide) (by decide) (by decide)]
          exact hint
        · rcases hcs : charsOfNat n.natAbs with _ | ⟨c, t⟩
          · exact absurd hcs (charsOfNat_ne_nil _)
          · have hcdig : c.isDigit = true :=
              charsOfNat_digits _ c (by rw [hcs]; simp)
            have hq := digit_head_ne c hcdig quoteChar (by decide)
            have hlb := digit_head_ne c hcdig '[' (by decide)
            have hbr := digit_head_ne c hcdig '{' (by decide)
            have hN := digit_head_ne c hcdig 'N' (by decide)
            have ht := digit_head_ne c hcdig 't' (by decide)
            have hf := digit_head_ne c hcdig 'f' (by decide)
            have hint := parseNumChars_intToDec n rest hb
            have hin2 : intToDecChars n ++ rest = c :: (t ++ rest) := by
              simp [intToDecChars, hn, hcs]
            rw [hin2] at hint
            have henc : encodeChars (.vint n) ++ rest = c :: (t ++ rest) := by
              simp [encodeChars, intToDecChars, hn, hcs]
            rw [henc, parseVal_dispatch_num g c _ hq hlb hbr hN ht hf]
            exact hint
      | vstr s =>
        obtain ⟨sd⟩ := s
        have h1 := psb_escape sd rest (headNotQuote_of_boundary rest hb)
        have henc : encodeChars (.vstr (String.mk sd)) ++ rest =
            quoteChar :: (escapeQuotes sd ++ quoteChar :: rest) := by
          simp [encodeChars]
        rw [henc, parseVal_dispatch_quote g _]
        simp only [h1]
        cases rest with
        | nil => rfl
        | cons c t => rcases hb with h | h | h <;> subst h <;> rfl
      | vfloat s =>
        obtain ⟨sd⟩ := s
        have hft : isFloatText sd = true := hgood
        have hp := isFloatText_parse sd hft
        have hext := parseNumChars_extend sd rest (.vfloat (String.mk sd)) hp hb
        obtain ⟨c, t, heq, hd⟩ := isFloatText_head sd hft
        have hq := float_head_ne c hd quoteChar (by decide) (by decide)
        have hlb := float_head_ne c hd '[' (by decide) (by decide)
        have hbr := float_head_ne c hd '{' (by decide) (by decide)
        have hN := float_head_ne c hd 'N' (by decide) (by decide)
        have ht := float_head_ne c hd 't' (by decide) (by decide)
        have hf := float_head_ne c hd 'f' (by decide) (by decide)
        have henc : encodeChars (.vfloat (String.mk sd)) ++ rest =
            c :: (t ++ rest) := by
          simp [encodeChars, heq]
        have hsd : sd ++ rest = c :: (t ++ rest) := by simp [heq]
        rw [hsd] at hext
        rw [henc, parseVal_dispatch_num g c _ hq hlb hbr hN ht hf]
        exact hext
      | vblob s =>
        obtain ⟨sd⟩ := s
        have hnq : ∀ c ∈ sd, ¬ c = quoteChar :=
          noQuote_forall sd (by simpa [GoodVal] using hgood)
        have h1 := psb_noquote sd (':' :: ':' :: (blobSuffix ++ rest)) hnq
          (by show ¬ (':' : Char) = quoteChar; decide)
        have h2 := parseCastSuffix_blob sd rest
          (headFailsToken_of_boundary rest hb)
        have henc : encodeChars (.vblob (String.mk sd)) ++ rest =
            quoteChar :: (sd ++ quoteChar :: ':' :: ':' :: (blobSuffix ++ rest)) := by
          simp [encodeChars]
        rw [henc, parseVal_dispatch_quote g _]
        simp only [h1, h2]
      | vtemporal k s =>
        obtain ⟨sd⟩ := s
        have hnq : ∀ c ∈ sd, ¬ c = quoteChar :=
          noQuote_forall sd (by simpa [GoodVal] using hgood)
        have h1 := psb_noquote sd (':' :: ':' :: (temporalSuffix k ++ rest)) hnq
          (by show ¬ (':' : Char) = quoteChar; decide)
        have h2 := parseCastSuffix_temporal k sd rest
          (headFailsToken_of_boundary rest hb)
        have henc : encodeChars (.vtemporal k (String.mk sd)) ++ rest =
            quoteChar ::
              (sd ++ quoteChar :: ':' :: ':' :: (temporalSuffix k ++ rest)) := by
          simp [encodeChars]
        rw [henc, parseVal_dispatch_quote g _]
        simp only [h1, h2]
      | vcast ty s =>
        obtain ⟨sd⟩ := s
        obtain ⟨tyd⟩ := ty
        have hty : isTypeToken tyd = true := hgood
        have h1 := psb_escape sd (':' :: ':' :: (tyd ++ rest))
          (by show ¬ (':' : Char) = quoteChar; decide)
        have h2 := parseCastSuffix_cast tyd sd rest hty
          (headFailsToken_of_boundary rest hb)
        have henc : encodeChars (.vcast (String.mk tyd) (String.mk sd)) ++ rest =
            quoteChar ::
              (escapeQuotes sd ++ quoteChar :: ':' :: ':' :: (tyd ++ rest)) := by
          simp [encodeChars]
        rw [henc, parseVal_dispatch_quote g _]
        simp only [h1, h2]
      | vlist xs =>
        cases xs with
        | nil => rfl
        | cons x tl =>
          have hgl : GoodList (.cons x tl) = true := by
            simpa [GoodVal] using hgood
          have hgx : GoodVal x = true := by
            have h := hgl
            simp [GoodList, Bool.and_eq_true] at h
            exact h.1
          obtain ⟨c, t, hct, hc1, hc2⟩ := encodeListChars_cons_head x tl hgx
          have hlen2 : (encodeListChars (.cons x tl)).length + 1 < g := by
            simp [encodeChars] at hlen
            omega
          have htail := ihL (.cons x tl) rest hgl hlen2 hb
            (fun h => ValueList.noConfusion h)
          have henc : encodeChars (.vlist (.cons x tl)) ++ rest =
              '[' :: c :: (t ++ ']' :: rest) := by
            simp [encodeChars, hct]
          rw [henc, parseVal_dispatch_list g c _ hc1]
          have hback : c :: (t ++ ']' :: rest) =
              encodeListChars (.cons x tl) ++ ']' :: rest := by
            simp [hct]
          rw [hback, htail]
      | vstruct fs =>
        cases fs with
        | nil => rfl
        | cons k v tl =>
          obtain ⟨t0, ht0⟩ := encodeStructChars_cons_head k v tl
          have hgs : GoodFields (.cons k v tl) = true := by
            simpa [GoodVal] using hgood
          have hlen2 : (encodeStructChars (.cons k v tl)).length + 1 < g := by
            simp [encodeChars] at hlen
            omega
          have htail := ihS (.cons k v tl) rest hgs hlen2 hb
            (fun h => FieldList.noConfusion h)
          have henc : encodeChars (.vstruct (.cons k v tl)) ++ rest =
              '{' :: quoteChar :: (t0 ++ '}' :: rest) := by
            simp [encodeChars, ht0]
          rw [henc, parseVal_dispatch_struct g quoteChar _ (by decide)]
          have hback : quoteChar :: (t0 ++ '}' :: rest) =
              encodeStructChars (.cons k v tl) ++ '}' :: rest := by
            simp [ht0]
          rw [hback, htail]
    · intro xs rest hgood hlen hb hne
      cases xs with
      | nil => exact absurd rfl hne
      | cons x tl =>
        have hg2 : GoodVal x = true ∧ GoodList tl = true := by
          have h := hgood
          simp [GoodList, Bool.and_eq_true] at h
          exact h
        cases tl with
        | nil =>
          have hlx : (encodeChars x).length < g := by
            simp [encodeListChars] at hlen
            omega
          have h1 := ihV x (']' :: rest) hg2.1 hlx (boundary_close_bracket rest)
          have henc : encodeListChars (.cons x .nil) ++ ']' :: rest =
              encodeChars x ++ ']' :: rest := by
            simp [encodeListChars]
          rw [henc, parseListTail_succ g _]
          simp only [h1]
        | cons y tl2 =>
          have hlx : (encodeChars x).length < g := by
            simp [encodeListChars] at hlen
            omega
          have hlt : (encodeListChars (.cons y tl2)).length + 1 < g := by
            simp [encodeListChars] at hlen
            omega
          have h1 := ihV x
            (',' :: ' ' :: (encodeListChars (.cons y tl2) ++ ']' :: rest))
            hg2.1 hlx (boundary_comma _)
          have h2 := ihL (.cons y tl2) rest hg2.2 hlt hb
            (fun h => ValueList.noConfusion h)
          have henc : encodeListChars (.cons x (.cons y tl2)) ++ ']' :: rest =
              encodeChars x ++
                (',' :: ' ' :: (encodeListChars (.cons y tl2) ++ ']' :: rest)) := by
            simp [encodeListChars]
          rw [henc, parseListTail_succ g _]
          simp only [h1, h2]
    · intro fs rest hgood hlen hb hne
      cases fs with
      | nil => exact absurd rfl hne
      | cons k v tl =>
        obtain ⟨kd⟩ := k
        have hg3 : noQuote kd = true ∧ GoodVal v = true ∧ GoodFields tl = true := by
          have h := hgood
          simp [GoodFields, Bool.and_eq_true, and_assoc] at h
          exact h
        cases tl with
        | nil =>
          have hlv : (encodeChars v).length < g := by
            simp [encodeStructChars] at hlen
            omega
          have h1 := psb_noquote kd
            (':' :: ' ' :: (encodeChars v ++ '}' :: rest))
            (noQuote_forall kd hg3.1)
            (by show ¬ (':' : Char) = quoteChar; decide)
          have h2 := ihV v ('}' :: rest) hg3.2.1 hlv (boundary_close_brace rest)
          have henc : encodeStructChars (.cons (String.mk kd) v .nil) ++ '}' :: rest =
              quoteChar ::
                (kd ++ quoteChar :: ':' :: ' ' :: (encodeChars v ++ '}' :: rest)) := by
            simp [encodeStructChars]
          rw [henc, parseStructTail_quote g _]
          simp only [h1, h2]
        | cons k2 v2 tl2 =>
          have hlv : (encodeChars v).length < g := by
            simp [encodeStructChars] at hlen
            omega
          have hlt : (encodeStructChars (.cons k2 v2 tl2)).length + 1 < g := by
            simp [encodeStructChars] at hlen
            omega
          have h1 := psb_noquote kd
            (':' :: ' ' ::
              (encodeChars v ++ ',' :: ' ' ::
                (encodeStructChars (.cons k2 v2 tl2) ++ '}' :: rest)))
            (noQuote_forall kd hg3.1)
            (by show ¬ (':' : Char) = quoteChar; decide)
          have h2 := ihV v
            (',' :: ' ' :: (encodeStructChars (.cons k2 v2 tl2) ++ '}' :: rest))
            hg3.2.1 hlv (boundary_comma _)
          have h3 := ihS (.cons k2 v2 tl2) rest hg3.2.2 hlt hb
            (fun h => FieldList.noConfusion h)
          have henc : encodeStructChars
                (.cons (String.mk kd) v (.cons k2 v2 tl2)) ++ '}' :: rest =
              quoteChar ::
                (kd ++ quoteChar :: ':' :: ' ' ::
                  (encodeChars v ++ ',' :: ' ' ::
                    (encodeStructChars (.cons k2 v2 tl2) ++ '}' :: rest))) := by
            simp [encodeStructChars]
          rw [henc, parseStructTail_quote g _]
          simp only [h1, h2, h3]

/-- C2 counterexample: the claim fails on the code, on three independent
value kinds. The STRUCT whose single child is named `a'b` encodes to
`\x7b'a'b': NULL\x7d` — child names are embedded unescaped — which the
host literal grammar cannot parse. The BLOB whose rendering is `a'b`
encodes to `'a'b'::BLOB` — the BLOB branch embeds the rendering between
quotes with no escaping — which misparses as the string `a` followed by
stray text, so the literal fails. The DOUBLE infinity renders as `inf`,
which the encoder embeds bare and unquoted; it is no numeral of the
grammar, so that text does not parse either. -/
theorem c2_counterexample :
    (ValueToSQL badStruct = "\x7b'a'b': NULL\x7d" ∧
      parseLiteral (ValueToSQL badStruct) = none) ∧
    (ValueToSQL badBlob = "'a'b'::BLOB" ∧
      parseLiteral (ValueToSQL badBlob) = none) ∧
    (ValueToSQL badFloat = "inf" ∧
      parseLiteral (ValueToSQL badFloat) = none) := by
  exact ⟨⟨rfl, rfl⟩, ⟨rfl, rfl⟩, ⟨rfl, rfl⟩⟩

/-- C2 as amended: for every supported value — over all of `ValueToSQL`'s
branches — whose unescaped embedded texts are quote-free (record child
names, temporal texts, binary texts; canonical renderings of these are),
whose floating-point renderings are numerals of the grammar (all finite
values; infinities and NaN render as bare words and are excluded), and
whose fallback-cast type names are simple type names, parsing the emitted
literal under the host grammar fragment reconstructs the value exactly —
including nested collections and records, strings and fallback-cast texts
with embedded quotes, negative integers and floats, booleans and nulls. -/
theorem c2_round_trip (v : Value) (h : GoodVal v = true) :
    parseLiteral (ValueToSQL v) = some v := by
  have hmain := (parse_encode_main ((encodeChars v).length + 1)).1 v [] h
    (by omega) boundary_nil
  rw [List.append_nil] at hmain
  show (match parseVal ((encodeChars v).length + 1) (encodeChars v) with
        | some (w, []) => some w
        | _ => none) = some v
  rw [hmain]

/-- C2 amended-claim witness: the nested sample round-trips. -/
theorem c2_round_trip_witness :
    GoodVal nestedSample = true ∧
    parseLiteral (ValueToSQL nestedSample) = some nestedSample := by
  exact ⟨by decide, c2_round_trip nestedSample (by decide)⟩

end FuncApply
